import Mathlib

/-!
# Verification of the derrors status-resolution engine

This file gives a shallow embedding of the core of the `derrors` repository:
the segment trie (`mapper/internal/segmenttrie/trie.go`) and the immutable
status mapper built on top of it (`mapper` package: `New`, `HTTPStatus`,
`GRPCStatus`, `Explain`), together with theorems about the embedded
definitions.

Strings are modelled at the character-list level (`List Char`); the Go code
iterates over bytes, but every character class the code tests for
(`[a-z0-9_]`, `.`, `*`) is ASCII, so byte-level and char-level scanning
agree on all inputs.  Go maps are modelled as association lists; the code
only ever looks maps up by key (and the per-code rule maps are iterated in
a fixed order in the model where Go iterates in unspecified order, which is
noted where it matters).
-/

namespace Derrors

/-! ## Character classes used by the trie scanner (trie.go)

`Trie.Match` validates the path inline: the first character of a segment
must be in `[a-z]`, later characters must be in `[a-z0-9_]` until a `.`.
-/

/-- First-segment-character test of `Trie.Match`: `c >= 'a' && c <= 'z'`. -/
def isLowerAZ (c : Char) : Bool := 'a' ≤ c && c ≤ 'z'

/-- Later-segment-character test of `Trie.Match`:
`(c >= 'a' && c <= 'z') || (c >= '0' && c <= '9') || c == '_'`. -/
def isSegChar (c : Char) : Bool :=
  ('a' ≤ c && c ≤ 'z') || ('0' ≤ c && c ≤ '9') || c = '_'

/-! ## Inline segment scanning (the loop at trie.go lines 127-153)

`scanTail` is the inner loop: consume `[a-z0-9_]*` until a `.` or the end
of the input; an invalid character aborts (`none`), which in `Trie.Match`
means "stop this path and keep the best match so far".  `nextSeg` is the
whole per-segment parse: first character must be `[a-z]`, then `scanTail`,
then the separating dot (when present) is consumed before recursing. -/

/-- The scan loop of `Trie.Match`: stops at a `.` (left in the remainder)
or at the end; `none` on the first invalid character. -/
def scanTail : List Char → Option (List Char × List Char)
  | [] => some ([], [])
  | c :: cs =>
    if c = '.' then some ([], c :: cs)
    else if isSegChar c then
      match scanTail cs with
      | some (s, r) => some (c :: s, r)
      | none => none
    else none

/-- Consume the single separating `.` if present
(the `if nextOff < len(reason) && reason[nextOff] == '.'` step). -/
def dropDot : List Char → List Char
  | '.' :: cs => cs
  | cs => cs

/-- Parse the next segment at the current offset, as `Trie.Match` does:
first char in `[a-z]`, then `scanTail`, then drop the separating dot.
`none` both at the end of the input and on an invalid character — in both
cases the traversal stops at the current node. -/
def nextSeg : List Char → Option (List Char × List Char)
  | [] => none
  | c :: cs =>
    if isLowerAZ c then
      match scanTail cs with
      | some (s, r) => some (c :: s, dropDot r)
      | none => none
    else none

theorem scanTail_length {l s r : List Char} (h : scanTail l = some (s, r)) :
    r.length ≤ l.length := by
  induction l generalizing s r with
  | nil => simp [scanTail] at h; simp [h.2]
  | cons c cs ih =>
    simp only [scanTail] at h
    by_cases hc : c = '.'
    · simp [hc] at h
      simp [← h.2]
    · simp only [hc, if_false] at h
      by_cases hs : isSegChar c = true
      · simp only [hs, if_true] at h
        cases hst : scanTail cs with
        | none => rw [hst] at h; exact absurd h (by simp)
        | some p =>
          rw [hst] at h
          obtain ⟨s0, r0⟩ := p
          simp at h
          have := ih (s := s0) (r := r0) hst
          obtain ⟨h1, h2⟩ := h
          subst h2
          simp
          omega
      · simp [hs] at h

theorem dropDot_length (l : List Char) : (dropDot l).length ≤ l.length := by
  cases l with
  | nil => simp [dropDot]
  | cons c cs =>
    by_cases h : c = '.'
    · subst h; simp [dropDot]
    · have : dropDot (c :: cs) = c :: cs := by
        unfold dropDot
        split
        · next heq =>
          cases heq
          exact absurd rfl h
        · rfl
      simp [this]

theorem nextSeg_length {l seg r : List Char} (h : nextSeg l = some (seg, r)) :
    r.length < l.length := by
  cases l with
  | nil => simp [nextSeg] at h
  | cons c cs =>
    simp only [nextSeg] at h
    by_cases hc : isLowerAZ c = true
    · simp only [hc, if_true] at h
      cases hst : scanTail cs with
      | none => rw [hst] at h; exact absurd h (by simp)
      | some p =>
        rw [hst] at h
        obtain ⟨s0, r0⟩ := p
        simp at h
        obtain ⟨h1, h2⟩ := h
        subst h2
        have h3 := scanTail_length hst
        have h4 := dropDot_length r0
        simp
        omega
    · simp [hc] at h

/-- The lenient segmentation a lookup actually sees: the maximal list of
valid segments readable from the front of the input; everything from the
first invalid character (or stray dot) on is ignored. -/
def segsOf (l : List Char) : List (List Char) :=
  match h : nextSeg l with
  | none => []
  | some (seg, r) => seg :: segsOf r
termination_by l.length
decreasing_by exact nextSeg_length h

/-! ## Splitting and validating insert patterns (trie.go lines 234-280)

`splitAndValidate` mirrors `strings.Split(s, ".")` followed by the
per-segment validation; `splitDots` is `strings.Split` specialised to the
single-character separator `"."` (empty pieces are preserved, and the
empty string is handled separately by the caller as in the source). -/

/-- `strings.Split(s, ".")` at the character level: empty pieces kept. -/
def splitDots : List Char → List (List Char)
  | [] => [[]]
  | c :: cs =>
    if c = '.' then [] :: splitDots cs
    else
      match splitDots cs with
      | s :: rest => (c :: s) :: rest
      | [] => [[c]]

/-- Joining segments back with `.` separators (used to state theorems about
the canonical text of a pattern; inverse of `splitDots` on dot-free
segments). -/
def joinDots : List (List Char) → List Char
  | [] => []
  | [s] => s
  | s :: rest => s ++ '.' :: joinDots rest

/-- The literal-segment syntax `[a-z][a-z0-9_]*` of `validSegment`. -/
def validSegChars : List Char → Bool
  | [] => false
  | c :: cs => isLowerAZ c && cs.all isSegChar

/-- `validSegment` of trie.go: empty segments invalid; `*` allowed when
`allowWildcard`; otherwise `[a-z][a-z0-9_]*`. -/
def validSegment (seg : List Char) (allowWildcard : Bool) : Bool :=
  if seg = [] then false
  else if allowWildcard && seg = ['*'] then true
  else validSegChars seg

/-- `splitAndValidate` of trie.go: the empty string is an empty (valid)
segment list; otherwise split on `.` and validate every segment. -/
def splitAndValidate (l : List Char) (allowWildcard : Bool) :
    Option (List (List Char)) :=
  if l = [] then some []
  else
    let segs := splitDots l
    if segs.all (fun s => validSegment s allowWildcard) then some segs else none

/-! ## The trie (trie.go lines 28-99)

`Trie[T]` has a `children map[string]*Trie[T]`, a `hasVal`/`val` pair and a
`pattern` string.  Children are modelled as an association list keyed by
the segment characters; `hasVal`/`val` are fused into an `Option T`
(`Insert` is the only writer and always sets both together); `pattern` is
kept as the characters of the inserted prefix. -/

inductive Trie (T : Type) where
  | node (children : List (List Char × Trie T)) (val : Option T)
      (pattern : List Char)

namespace Trie

variable {T : Type}

/-- The `children` field. -/
def children : Trie T → List (List Char × Trie T)
  | node ch _ _ => ch

/-- The `hasVal`/`val` pair, fused. -/
def val : Trie T → Option T
  | node _ v _ => v

/-- The `pattern` field (canonical dotted text, set on first insert). -/
def pattern : Trie T → List Char
  | node _ _ p => p

/-- `New[T]()`: empty children, no value, empty pattern. -/
def empty : Trie T := node [] none []

/-- Update-or-append on the children map (Go `cur.children[s] = child`). -/
def setChild : List (List Char × Trie T) → List Char → Trie T →
    List (List Char × Trie T)
  | [], k, c => [(k, c)]
  | (k0, c0) :: rest, k, c =>
    if k0 = k then (k, c) :: rest else (k0, c0) :: setChild rest k c

/-- The walk/create loop of `Insert`: follow (or create) the child for each
segment; at the terminal node set `hasVal`/`val` and set `pattern` only if
it is still empty (`if cur.pattern == ""`). -/
def insertSegs : Trie T → List (List Char) → T → List Char → Trie T
  | node ch _ pat, [], v, pfx =>
    node ch (some v) (if pat = [] then pfx else pat)
  | node ch v0 pat, s :: rest, v, pfx =>
    let child := (List.lookup s ch).getD empty
    node (setChild ch s (insertSegs child rest v pfx)) v0 pat

/-- The single error value `ErrInvalidPrefix` of trie.go. -/
inductive Err where
  | errInvalidPfx
  deriving DecidableEq

/-- `Trie.Insert` on a non-nil receiver: split and validate the prefix
(wildcards allowed), reject empty or all-wildcard prefixes, then walk and
mark the terminal node. -/
def insertChars (t : Trie T) (pfx : List Char) (v : T) : Except Err (Trie T) :=
  match splitAndValidate pfx true with
  | none => .error .errInvalidPfx
  | some segs =>
    if segs = [] then .error .errInvalidPfx
    else if segs.all (fun s => s = ['*']) then .error .errInvalidPfx
    else .ok (insertSegs t segs v pfx)

/-- `Trie.Insert` with a `String` prefix (the Go signature). -/
def insert (t : Trie T) (pfx : String) (v : T) : Except Err (Trie T) :=
  insertChars t pfx.toList v

/-! ## Match (trie.go lines 106-172)

The traversal state of `Match`: `bestDepth` starts at `-1`, `bestVal` holds
the value of the deepest value-carrying node seen so far.  `matchDFS` is
the closure `dfs`: record the current node if it carries a value strictly
deeper than the best so far, stop at the end of the input or at an invalid
segment, otherwise recurse into the exact-segment child and then into the
`"*"` child, on the input with the segment and its separating dot consumed
(the Go code computes `nextOff` separately in each branch, but from the
same `i`, so the two branches see the same remainder).  The returned
`depth` of the Go closure is discarded by all callers and is omitted. -/

structure MState (T : Type) where
  bestDepth : Int
  bestVal : Option T

/-- The `dfs` closure of `Trie.Match`, with the mutled-over state passed
explicitly. -/
def matchDFS : Trie T → List Char → Nat → MState T → MState T :=
  fun n rest depth st =>
    let st1 : MState T :=
      if n.val.isSome ∧ (depth : Int) > st.bestDepth
      then ⟨(depth : Int), n.val⟩ else st
    match h : nextSeg rest with
    | none => st1
    | some (seg, rest') =>
      let st2 : MState T :=
        match List.lookup seg n.children with
        | some next => matchDFS next rest' (depth + 1) st1
        | none => st1
      match List.lookup ['*'] n.children with
      | some next => matchDFS next rest' (depth + 1) st2
      | none => st2
termination_by n rest => rest.length
decreasing_by all_goals exact nextSeg_length h

/-- `Trie.Match` on a non-nil receiver: run the dfs from the root at depth
0 with `bestDepth = -1`; `(zero, false)` — here `none` — when nothing
matched. -/
def matchVal (t : Trie T) (reason : String) : Option T :=
  let st := matchDFS t reason.toList 0 ⟨-1, none⟩
  if st.bestDepth < 0 then none else st.bestVal

/-- The traversal state of `MatchWithPattern`: additionally tracks the
winning node's `pattern`. -/
structure PState (T : Type) where
  bestDepth : Int
  bestVal : Option T
  bestPat : List Char

/-- The `dfs` closure of `Trie.MatchWithPattern` (trie.go lines 186-225):
same traversal as `matchDFS`, also recording the winning node's pattern. -/
def patDFS : Trie T → List Char → Nat → PState T → PState T :=
  fun n rest depth st =>
    let st1 : PState T :=
      if n.val.isSome ∧ (depth : Int) > st.bestDepth
      then ⟨(depth : Int), n.val, n.pattern⟩ else st
    match h : nextSeg rest with
    | none => st1
    | some (seg, rest') =>
      let st2 : PState T :=
        match List.lookup seg n.children with
        | some next => patDFS next rest' (depth + 1) st1
        | none => st1
      match List.lookup ['*'] n.children with
      | some next => patDFS next rest' (depth + 1) st2
      | none => st2
termination_by n rest => rest.length
decreasing_by all_goals exact nextSeg_length h

/-- `Trie.MatchWithPattern` on a non-nil receiver: `(value?, pattern)`;
`(none, [])` encodes Go's `(zero, false, "")`. -/
def matchWithPattern (t : Trie T) (reason : String) :
    Option T × List Char :=
  let st := patDFS t reason.toList 0 ⟨-1, none, []⟩
  if st.bestDepth < 0 then (none, []) else (st.bestVal, st.bestPat)

end Trie

/-! ## Nil receivers (trie.go lines 62-64, 108-110, 179-181)

All three methods guard a nil `*Trie[T]` receiver: `Insert` returns
`ErrInvalidPrefix`, `Match` returns `(zero, false)`, `MatchWithPattern`
returns `(zero, false, "")`.  A nullable trie pointer is `Option (Trie T)`. -/

/-- A Go `*Trie[T]`: `none` is the nil pointer. -/
def TriePtr (T : Type) : Type := Option (Trie T)

namespace TriePtr

variable {T : Type}

/-- `Insert` including the nil-receiver guard. -/
def insert : TriePtr T → String → T → Except Trie.Err (TriePtr T)
  | none, _, _ => .error .errInvalidPfx
  | some t, p, v => (t.insert p v).map some

/-- `Match` including the nil-receiver guard. -/
def matchVal : TriePtr T → String → Option T
  | none, _ => none
  | some t, r => t.matchVal r

/-- `MatchWithPattern` including the nil-receiver guard. -/
def matchWithPattern : TriePtr T → String → Option T × List Char
  | none, _ => (none, [])
  | some t, r => t.matchWithPattern r

end TriePtr

/-! ## Segment-level reformulation of the two traversals

`Trie.Match` consumes the input only through `nextSeg`, so the traversal is
a function of the lenient segmentation `segsOf` of the input.  The
segment-level versions below recurse structurally on the segment list and
are proved equal to the byte-level closures. -/

namespace Trie

variable {T : Type}

/-- The best-so-far update of `Match`
(`if n.hasVal && depth > bestDepth`). -/
def mupd (n : Trie T) (depth : Nat) (st : MState T) : MState T :=
  if n.val.isSome ∧ (depth : Int) > st.bestDepth
  then ⟨(depth : Int), n.val⟩ else st

/-- The best-so-far update of `MatchWithPattern`. -/
def pupd (n : Trie T) (depth : Nat) (st : PState T) : PState T :=
  if n.val.isSome ∧ (depth : Int) > st.bestDepth
  then ⟨(depth : Int), n.val, n.pattern⟩ else st

/-- `matchDFS`, reformulated over the segment list the scanner yields. -/
def matchSegsDFS : Trie T → List (List Char) → Nat → MState T → MState T
  | n, [], depth, st => mupd n depth st
  | n, s :: ss, depth, st =>
    let st1 := mupd n depth st
    let st2 :=
      match List.lookup s n.children with
      | some next => matchSegsDFS next ss (depth + 1) st1
      | none => st1
    match List.lookup ['*'] n.children with
    | some next => matchSegsDFS next ss (depth + 1) st2
    | none => st2

/-- `patDFS`, reformulated over the segment list the scanner yields. -/
def patSegsDFS : Trie T → List (List Char) → Nat → PState T → PState T
  | n, [], depth, st => pupd n depth st
  | n, s :: ss, depth, st =>
    let st1 := pupd n depth st
    let st2 :=
      match List.lookup s n.children with
      | some next => patSegsDFS next ss (depth + 1) st1
      | none => st1
    match List.lookup ['*'] n.children with
    | some next => patSegsDFS next ss (depth + 1) st2
    | none => st2

theorem matchDFS_eq_segs (n : Trie T) (rest : List Char) (depth : Nat)
    (st : MState T) :
    matchDFS n rest depth st = matchSegsDFS n (segsOf rest) depth st := by
  rw [matchDFS, segsOf]
  cases h : nextSeg rest with
  | none => rfl
  | some p =>
    obtain ⟨seg, rest'⟩ := p
    simp only [matchSegsDFS]
    cases hx : List.lookup seg n.children with
    | none =>
      cases hw : List.lookup ['*'] n.children with
      | none => rfl
      | some next =>
        dsimp only
        exact matchDFS_eq_segs next rest' (depth + 1) _
    | some next =>
      cases hw : List.lookup ['*'] n.children with
      | none =>
        dsimp only
        exact matchDFS_eq_segs next rest' (depth + 1) _
      | some nw =>
        dsimp only
        rw [matchDFS_eq_segs next rest' (depth + 1)]
        exact matchDFS_eq_segs nw rest' (depth + 1) _
termination_by rest.length
decreasing_by all_goals exact nextSeg_length h

theorem patDFS_eq_segs (n : Trie T) (rest : List Char) (depth : Nat)
    (st : PState T) :
    patDFS n rest depth st = patSegsDFS n (segsOf rest) depth st := by
  rw [patDFS, segsOf]
  cases h : nextSeg rest with
  | none => rfl
  | some p =>
    obtain ⟨seg, rest'⟩ := p
    simp only [patSegsDFS]
    cases hx : List.lookup seg n.children with
    | none =>
      cases hw : List.lookup ['*'] n.children with
      | none => rfl
      | some next =>
        dsimp only
        exact patDFS_eq_segs next rest' (depth + 1) _
    | some next =>
      cases hw : List.lookup ['*'] n.children with
      | none =>
        dsimp only
        exact patDFS_eq_segs next rest' (depth + 1) _
      | some nw =>
        dsimp only
        rw [patDFS_eq_segs next rest' (depth + 1)]
        exact patDFS_eq_segs nw rest' (depth + 1) _
termination_by rest.length
decreasing_by all_goals exact nextSeg_length h

/-! ## The candidates of a traversal

A candidate is a value-carrying node visited by the dfs, recorded as
(depth, value, pattern).  `candsSegs` lists the candidates in the exact
order the dfs visits them: the current node first, then the exact-segment
subtree, then the wildcard subtree.  Both traversals are then folds of
their best-so-far update over this list, which reduces questions about
`Match` to questions about first/deepest elements of the candidate list. -/

/-- (depth, value, pattern) of a value-carrying node met by the dfs. -/
abbrev Cand (T : Type) := Nat × Option T × List Char

/-- The candidate contributed by the node itself, if it carries a value. -/
def selfCands (n : Trie T) (depth : Nat) : List (Cand T) :=
  if n.val.isSome then [(depth, n.val, n.pattern)] else []

/-- All candidates of the traversal, in dfs visiting order. -/
def candsSegs : Trie T → List (List Char) → Nat → List (Cand T)
  | n, [], depth => selfCands n depth
  | n, s :: ss, depth =>
    selfCands n depth ++
    ((match List.lookup s n.children with
      | some next => candsSegs next ss (depth + 1)
      | none => []) ++
     (match List.lookup ['*'] n.children with
      | some next => candsSegs next ss (depth + 1)
      | none => []))

/-- The `Match` update as a fold step over candidates. -/
def mstep (st : MState T) (c : Cand T) : MState T :=
  if (c.1 : Int) > st.bestDepth then ⟨(c.1 : Int), c.2.1⟩ else st

/-- The `MatchWithPattern` update as a fold step over candidates. -/
def pstep (st : PState T) (c : Cand T) : PState T :=
  if (c.1 : Int) > st.bestDepth then ⟨(c.1 : Int), c.2.1, c.2.2⟩ else st

theorem foldl_mstep_selfCands (n : Trie T) (depth : Nat) (st : MState T) :
    (selfCands n depth).foldl mstep st = mupd n depth st := by
  unfold selfCands mupd
  cases hv : n.val with
  | none => simp
  | some v =>
    simp only [Option.isSome_some, if_true, List.foldl_cons, List.foldl_nil,
      true_and, mstep]

theorem foldl_pstep_selfCands (n : Trie T) (depth : Nat) (st : PState T) :
    (selfCands n depth).foldl pstep st = pupd n depth st := by
  unfold selfCands pupd
  cases hv : n.val with
  | none => simp
  | some v =>
    simp only [Option.isSome_some, if_true, List.foldl_cons, List.foldl_nil,
      true_and, pstep]

theorem matchSegsDFS_eq_foldl (n : Trie T) (path : List (List Char))
    (depth : Nat) (st : MState T) :
    matchSegsDFS n path depth st = (candsSegs n path depth).foldl mstep st := by
  induction path generalizing n depth st with
  | nil => rw [matchSegsDFS, candsSegs, foldl_mstep_selfCands]
  | cons s ss ih =>
    rw [matchSegsDFS, candsSegs]
    rw [List.foldl_append, List.foldl_append, foldl_mstep_selfCands]
    cases hx : List.lookup s n.children with
    | none =>
      cases hw : List.lookup ['*'] n.children with
      | none => rfl
      | some next => dsimp only; rw [ih]; rfl
    | some next =>
      cases hw : List.lookup ['*'] n.children with
      | none => dsimp only; rw [ih]; rfl
      | some nw => dsimp only; rw [ih, ih]

theorem patSegsDFS_eq_foldl (n : Trie T) (path : List (List Char))
    (depth : Nat) (st : PState T) :
    patSegsDFS n path depth st = (candsSegs n path depth).foldl pstep st := by
  induction path generalizing n depth st with
  | nil => rw [patSegsDFS, candsSegs, foldl_pstep_selfCands]
  | cons s ss ih =>
    rw [patSegsDFS, candsSegs]
    rw [List.foldl_append, List.foldl_append, foldl_pstep_selfCands]
    cases hx : List.lookup s n.children with
    | none =>
      cases hw : List.lookup ['*'] n.children with
      | none => rfl
      | some next => dsimp only; rw [ih]; rfl
    | some next =>
      cases hw : List.lookup ['*'] n.children with
      | none => dsimp only; rw [ih]; rfl
      | some nw => dsimp only; rw [ih, ih]

/-! ## First-at-max characterisation of the fold

The update fires only on a strictly greater depth, so the final state holds
the depth maximum of the candidate list and the value of the FIRST
candidate attaining it.  (`maxDepth cs d` is the running maximum of the
candidate depths, seeded with `d`.) -/

/-- Running maximum of candidate depths, seeded with `d`. -/
def maxDepth (cs : List (Cand T)) (d : Int) : Int :=
  cs.foldl (fun m c => max m (c.1 : Int)) d

theorem maxDepth_nil (d : Int) : maxDepth ([] : List (Cand T)) d = d := rfl

theorem maxDepth_cons (c : Cand T) (cs : List (Cand T)) (d : Int) :
    maxDepth (c :: cs) d = maxDepth cs (max d (c.1 : Int)) := rfl

theorem le_maxDepth (cs : List (Cand T)) (d : Int) : d ≤ maxDepth cs d := by
  induction cs generalizing d with
  | nil => simp [maxDepth_nil]
  | cons c cs ih =>
    rw [maxDepth_cons]
    exact le_trans (le_max_left _ _) (ih _)

theorem mem_le_maxDepth {cs : List (Cand T)} {c : Cand T} (h : c ∈ cs)
    (d : Int) : (c.1 : Int) ≤ maxDepth cs d := by
  induction cs generalizing d with
  | nil => simp at h
  | cons c0 cs ih =>
    rw [maxDepth_cons]
    rcases List.mem_cons.mp h with h0 | h0
    · subst h0
      exact le_trans (le_max_right _ _) (le_maxDepth _ _)
    · exact ih h0 _

theorem maxDepth_le {cs : List (Cand T)} {d m : Int}
    (hd : d ≤ m) (h : ∀ c ∈ cs, (c.1 : Int) ≤ m) : maxDepth cs d ≤ m := by
  induction cs generalizing d with
  | nil => simpa [maxDepth_nil] using hd
  | cons c0 cs ih =>
    rw [maxDepth_cons]
    exact ih (max_le hd (h c0 (List.mem_cons_self _ _)))
      (fun c hc => h c (List.mem_cons_of_mem _ hc))

theorem foldl_mstep_stall {cs : List (Cand T)} {st : MState T}
    (h : ∀ c ∈ cs, (c.1 : Int) ≤ st.bestDepth) : cs.foldl mstep st = st := by
  induction cs with
  | nil => rfl
  | cons c0 cs ih =>
    have h0 : ¬ ((c0.1 : Int) > st.bestDepth) := by
      have := h c0 (List.mem_cons_self _ _)
      omega
    rw [List.foldl_cons]
    rw [show mstep st c0 = st from by simp [mstep, h0]]
    exact ih (fun c hc => h c (List.mem_cons_of_mem _ hc))

theorem foldl_pstep_stall {cs : List (Cand T)} {st : PState T}
    (h : ∀ c ∈ cs, (c.1 : Int) ≤ st.bestDepth) : cs.foldl pstep st = st := by
  induction cs with
  | nil => rfl
  | cons c0 cs ih =>
    have h0 : ¬ ((c0.1 : Int) > st.bestDepth) := by
      have := h c0 (List.mem_cons_self _ _)
      omega
    rw [List.foldl_cons]
    rw [show pstep st c0 = st from by simp [pstep, h0]]
    exact ih (fun c hc => h c (List.mem_cons_of_mem _ hc))

theorem foldl_mstep_firstmax (cs : List (Cand T)) (st : MState T)
    (h : ∃ c ∈ cs, (c.1 : Int) > st.bestDepth) :
    ∃ c, cs.find? (fun x => (x.1 : Int) == maxDepth cs st.bestDepth) = some c ∧
      cs.foldl mstep st = ⟨maxDepth cs st.bestDepth, c.2.1⟩ := by
  induction cs generalizing st with
  | nil => simp at h
  | cons c0 cs ih =>
    rw [maxDepth_cons]
    by_cases h0 : (c0.1 : Int) > st.bestDepth
    · have hst : mstep st c0 = ⟨(c0.1 : Int), c0.2.1⟩ := by simp [mstep, h0]
      have hmax : max st.bestDepth (c0.1 : Int) = (c0.1 : Int) := by omega
      rw [hmax]
      by_cases h1 : ∃ c ∈ cs, (c.1 : Int) > (c0.1 : Int)
      · obtain ⟨c, hcm, hcd⟩ :=
          ih ⟨(c0.1 : Int), c0.2.1⟩ (by simpa using h1)
        have hne : ¬ ((fun x : Cand T =>
            (x.1 : Int) == maxDepth cs (c0.1 : Int)) c0 = true) := by
          obtain ⟨cw, hw, hwd⟩ := h1
          have := mem_le_maxDepth hw (c0.1 : Int)
          simp only [beq_iff_eq]
          omega
        refine ⟨c, ?_, ?_⟩
        · rw [List.find?_cons_of_neg (a := c0) _ hne]
          exact hcm
        · rw [List.foldl_cons, hst]
          exact hcd
      · push_neg at h1
        have hstall : cs.foldl mstep ⟨(c0.1 : Int), c0.2.1⟩ =
            ⟨(c0.1 : Int), c0.2.1⟩ :=
          foldl_mstep_stall (fun c hc => h1 c hc)
        have hmd : maxDepth cs (c0.1 : Int) = (c0.1 : Int) :=
          le_antisymm (maxDepth_le le_rfl (fun c hc => h1 c hc))
            (le_maxDepth _ _)
        have hpos : ((fun x : Cand T =>
            (x.1 : Int) == maxDepth cs (c0.1 : Int)) c0 = true) := by
          simp only [beq_iff_eq]
          omega
        refine ⟨c0, ?_, ?_⟩
        · rw [List.find?_cons_of_pos (a := c0) _ hpos]
        · rw [List.foldl_cons, hst, hstall, hmd]
    · have hst : mstep st c0 = st := by simp [mstep, h0]
      obtain ⟨cw, hw, hwd⟩ := h
      have hw' : cw ∈ cs := by
        rcases List.mem_cons.mp hw with h2 | h2
        · subst h2; omega
        · exact h2
      have hmax : max st.bestDepth (c0.1 : Int) = st.bestDepth := by omega
      rw [hmax]
      obtain ⟨c, hcm, hcd⟩ := ih st ⟨cw, hw', hwd⟩
      have hne : ¬ ((fun x : Cand T =>
          (x.1 : Int) == maxDepth cs st.bestDepth) c0 = true) := by
        have := mem_le_maxDepth hw' st.bestDepth
        simp only [beq_iff_eq]
        omega
      refine ⟨c, ?_, ?_⟩
      · rw [List.find?_cons_of_neg (a := c0) _ hne]
        exact hcm
      · rw [List.foldl_cons, hst]
        exact hcd

theorem foldl_pstep_firstmax (cs : List (Cand T)) (st : PState T)
    (h : ∃ c ∈ cs, (c.1 : Int) > st.bestDepth) :
    ∃ c, cs.find? (fun x => (x.1 : Int) == maxDepth cs st.bestDepth) = some c ∧
      cs.foldl pstep st = ⟨maxDepth cs st.bestDepth, c.2.1, c.2.2⟩ := by
  induction cs generalizing st with
  | nil => simp at h
  | cons c0 cs ih =>
    rw [maxDepth_cons]
    by_cases h0 : (c0.1 : Int) > st.bestDepth
    · have hst : pstep st c0 = ⟨(c0.1 : Int), c0.2.1, c0.2.2⟩ := by
        simp [pstep, h0]
      have hmax : max st.bestDepth (c0.1 : Int) = (c0.1 : Int) := by omega
      rw [hmax]
      by_cases h1 : ∃ c ∈ cs, (c.1 : Int) > (c0.1 : Int)
      · obtain ⟨c, hcm, hcd⟩ :=
          ih ⟨(c0.1 : Int), c0.2.1, c0.2.2⟩ (by simpa using h1)
        have hne : ¬ ((fun x : Cand T =>
            (x.1 : Int) == maxDepth cs (c0.1 : Int)) c0 = true) := by
          obtain ⟨cw, hw, hwd⟩ := h1
          have := mem_le_maxDepth hw (c0.1 : Int)
          simp only [beq_iff_eq]
          omega
        refine ⟨c, ?_, ?_⟩
        · rw [List.find?_cons_of_neg (a := c0) _ hne]
          exact hcm
        · rw [List.foldl_cons, hst]
          exact hcd
      · push_neg at h1
        have hstall : cs.foldl pstep ⟨(c0.1 : Int), c0.2.1, c0.2.2⟩ =
            ⟨(c0.1 : Int), c0.2.1, c0.2.2⟩ :=
          foldl_pstep_stall (fun c hc => h1 c hc)
        have hmd : maxDepth cs (c0.1 : Int) = (c0.1 : Int) :=
          le_antisymm (maxDepth_le le_rfl (fun c hc => h1 c hc))
            (le_maxDepth _ _)
        have hpos : ((fun x : Cand T =>
            (x.1 : Int) == maxDepth cs (c0.1 : Int)) c0 = true) := by
          simp only [beq_iff_eq]
          omega
        refine ⟨c0, ?_, ?_⟩
        · rw [List.find?_cons_of_pos (a := c0) _ hpos]
        · rw [List.foldl_cons, hst, hstall, hmd]
    · have hst : pstep st c0 = st := by simp [pstep, h0]
      obtain ⟨cw, hw, hwd⟩ := h
      have hw' : cw ∈ cs := by
        rcases List.mem_cons.mp hw with h2 | h2
        · subst h2; omega
        · exact h2
      have hmax : max st.bestDepth (c0.1 : Int) = st.bestDepth := by omega
      rw [hmax]
      obtain ⟨c, hcm, hcd⟩ := ih st ⟨cw, hw', hwd⟩
      have hne : ¬ ((fun x : Cand T =>
          (x.1 : Int) == maxDepth cs st.bestDepth) c0 = true) := by
        have := mem_le_maxDepth hw' st.bestDepth
        simp only [beq_iff_eq]
        omega
      refine ⟨c, ?_, ?_⟩
      · rw [List.find?_cons_of_neg (a := c0) _ hne]
        exact hcm
      · rw [List.foldl_cons, hst]
        exact hcd

/-! ## Master characterisation of `Match` and `MatchWithPattern` -/

/-- The first candidate attaining the maximal depth of the list (in dfs
visiting order). -/
def firstAtMax (cs : List (Cand T)) : Option (Cand T) :=
  cs.find? (fun x => (x.1 : Int) == maxDepth cs (-1))

theorem matchVal_eq_firstAtMax (t : Trie T) (r : String) :
    t.matchVal r =
      (firstAtMax (candsSegs t (segsOf r.toList) 0)).bind (fun c => c.2.1) := by
  unfold matchVal firstAtMax
  rw [matchDFS_eq_segs, matchSegsDFS_eq_foldl]
  cases hcs : candsSegs t (segsOf r.toList) 0 with
  | nil => simp
  | cons c0 cs' =>
    have hex : ∃ c ∈ c0 :: cs',
        (c.1 : Int) > (⟨-1, none⟩ : MState T).bestDepth :=
      ⟨c0, List.mem_cons_self _ _, by simp; omega⟩
    obtain ⟨c, hcm, hcd⟩ := foldl_mstep_firstmax _ _ hex
    rw [hcd]
    have hge : (0 : Int) ≤ maxDepth (c0 :: cs') (-1) :=
      le_trans (by omega) (mem_le_maxDepth (List.mem_cons_self c0 cs') _)
    have : ¬ (maxDepth (c0 :: cs')
        ((⟨-1, none⟩ : MState T)).bestDepth < 0) := by
      simpa using by omega
    rw [if_neg this]
    have hcm' : (c0 :: cs').find?
        (fun x => (x.1 : Int) == maxDepth (c0 :: cs') (-1)) = some c := hcm
    rw [hcm']
    rfl

theorem matchWithPattern_eq_firstAtMax (t : Trie T) (r : String) :
    t.matchWithPattern r =
      (match firstAtMax (candsSegs t (segsOf r.toList) 0) with
       | none => (none, [])
       | some c => (c.2.1, c.2.2)) := by
  unfold matchWithPattern firstAtMax
  rw [patDFS_eq_segs, patSegsDFS_eq_foldl]
  cases hcs : candsSegs t (segsOf r.toList) 0 with
  | nil => simp
  | cons c0 cs' =>
    have hex : ∃ c ∈ c0 :: cs',
        (c.1 : Int) > (⟨-1, none, []⟩ : PState T).bestDepth :=
      ⟨c0, List.mem_cons_self _ _, by simp; omega⟩
    obtain ⟨c, hcm, hcd⟩ := foldl_pstep_firstmax _ _ hex
    rw [hcd]
    have hge : (0 : Int) ≤ maxDepth (c0 :: cs') (-1) :=
      le_trans (by omega) (mem_le_maxDepth (List.mem_cons_self c0 cs') _)
    have : ¬ (maxDepth (c0 :: cs')
        ((⟨-1, none, []⟩ : PState T)).bestDepth < 0) := by
      simpa using by omega
    rw [if_neg this]
    have hcm' : (c0 :: cs').find?
        (fun x => (x.1 : Int) == maxDepth (c0 :: cs') (-1)) = some c := hcm
    rw [hcm']

/-- `Match` and `MatchWithPattern` agree on the value (the two dfs closures
perform the same traversal). -/
theorem matchVal_eq_matchWithPattern_fst (t : Trie T) (r : String) :
    t.matchVal r = (t.matchWithPattern r).1 := by
  rw [matchVal_eq_firstAtMax, matchWithPattern_eq_firstAtMax]
  cases firstAtMax (candsSegs t (segsOf r.toList) 0) with
  | none => rfl
  | some c => rfl

/-! ## `Match` as a function of the lenient segmentation -/

/-- `Match` expressed over an explicit segment list. -/
def matchSegsVal (t : Trie T) (path : List (List Char)) : Option T :=
  let st := matchSegsDFS t path 0 ⟨-1, none⟩
  if st.bestDepth < 0 then none else st.bestVal

theorem matchVal_eq_matchSegsVal (t : Trie T) (r : String) :
    t.matchVal r = matchSegsVal t (segsOf r.toList) := by
  unfold matchVal matchSegsVal
  rw [matchDFS_eq_segs]

/-! ## Declarative view: registered patterns and wildcard prefix matching

`entryAt t ps` is the (value, pattern) pair stored at the node reached
from `t` along the edge path `ps` (a wildcard edge is the literal key
`*`); a pattern is registered in the trie exactly when its node carries a
value.  `wildPfx ps path` is the specification of matching: each pattern
segment must equal the corresponding path segment or be `*`, and the whole
pattern must be consumed (a segment-aligned prefix). -/

/-- The (value, pattern) fields of the node at edge path `ps`, if the path
exists in the trie. -/
def entryAt : Trie T → List (List Char) → Option (Option T × List Char)
  | n, [] => some (n.val, n.pattern)
  | n, s :: ss =>
    match List.lookup s n.children with
    | some c => entryAt c ss
    | none => none

/-- Specification of pattern-vs-path matching: segment-aligned prefix,
with `*` matching exactly one arbitrary segment. -/
def wildPfx : List (List Char) → List (List Char) → Bool
  | [], _ => true
  | p :: ps, s :: ss => (p = ['*'] || p = s) && wildPfx ps ss
  | _ :: _, [] => false

/-- Soundness: every candidate the dfs finds is a registered
(value-carrying) pattern that wildcard-matches a segment-aligned prefix of
the path. -/
theorem candsSegs_sound {n : Trie T} {path : List (List Char)} {depth : Nat}
    {c : Cand T} (h : c ∈ candsSegs n path depth) :
    ∃ ps, wildPfx ps path = true ∧ entryAt n ps = some (c.2.1, c.2.2) ∧
      c.2.1.isSome ∧ c.1 = depth + ps.length := by
  induction path generalizing n depth with
  | nil =>
    rw [candsSegs] at h
    unfold selfCands at h
    by_cases hv : n.val.isSome
    · simp only [hv, if_true, List.mem_singleton] at h
      subst h
      exact ⟨[], rfl, rfl, hv, rfl⟩
    · simp [hv] at h
  | cons s ss ih =>
    rw [candsSegs] at h
    rcases List.mem_append.mp h with h1 | h1
    · unfold selfCands at h1
      by_cases hv : n.val.isSome
      · simp only [hv, if_true, List.mem_singleton] at h1
        subst h1
        exact ⟨[], rfl, rfl, hv, rfl⟩
      · simp [hv] at h1
    · rcases List.mem_append.mp h1 with h2 | h2
      · cases hx : List.lookup s n.children with
        | none => rw [hx] at h2; simp at h2
        | some child =>
          rw [hx] at h2
          obtain ⟨ps, hwp, hen, hsm, hd⟩ := ih h2
          refine ⟨s :: ps, ?_, ?_, hsm, ?_⟩
          · simp [wildPfx, hwp]
          · rw [entryAt, hx]; exact hen
          · simp only [List.length_cons]; omega
      · cases hw : List.lookup ['*'] n.children with
        | none => rw [hw] at h2; simp at h2
        | some child =>
          rw [hw] at h2
          obtain ⟨ps, hwp, hen, hsm, hd⟩ := ih h2
          refine ⟨['*'] :: ps, ?_, ?_, hsm, ?_⟩
          · simp [wildPfx, hwp]
          · rw [entryAt, hw]; exact hen
          · simp only [List.length_cons]; omega

/-- Completeness: every registered pattern that wildcard-matches a
segment-aligned prefix of the path is found by the dfs. -/
theorem candsSegs_complete {n : Trie T} {path ps : List (List Char)}
    {v : T} {q : List Char} (depth : Nat)
    (hw : wildPfx ps path = true) (he : entryAt n ps = some (some v, q)) :
    (depth + ps.length, some v, q) ∈ candsSegs n path depth := by
  induction ps generalizing n path depth with
  | nil =>
    rw [entryAt] at he
    have hv : n.val = some v ∧ n.pattern = q := by
      constructor
      · exact congrArg (fun x => x.1) (Option.some.inj he)
      · exact congrArg (fun x => x.2) (Option.some.inj he)
    have hself : (depth, some v, q) ∈ selfCands n depth := by
      unfold selfCands
      rw [hv.1, hv.2]
      simp
    cases path with
    | nil =>
      rw [candsSegs]
      simpa using hself
    | cons s ss =>
      rw [candsSegs]
      exact List.mem_append_left _ (by simpa using hself)
  | cons p ps' ih =>
    cases path with
    | nil => simp [wildPfx] at hw
    | cons s ss =>
      rw [wildPfx] at hw
      have hw2 : (p = ['*'] ∨ p = s) ∧ wildPfx ps' ss = true := by
        constructor
        · rcases Bool.and_eq_true_iff.mp hw with ⟨h1, _⟩
          rcases Bool.or_eq_true_iff.mp h1 with h2 | h2
          · exact Or.inl (by simpa using h2)
          · exact Or.inr (by simpa using h2)
        · exact (Bool.and_eq_true_iff.mp hw).2
      rw [entryAt] at he
      cases hx : List.lookup p n.children with
      | none => rw [hx] at he; cases he
      | some child =>
        rw [hx] at he
        have hmem := ih (n := child) (depth + 1) hw2.2 he
        have harith : depth + (ps'.length + 1) = (depth + 1) + ps'.length := by
          omega
        rcases hw2.1 with hps | hps
        · -- wildcard edge
          rw [candsSegs]
          refine List.mem_append_right _ (List.mem_append_right _ ?_)
          rw [← hps, hx]
          simpa [harith] using hmem
        · -- exact edge
          rw [candsSegs]
          refine List.mem_append_right _ (List.mem_append_left _ ?_)
          rw [← hps, hx]
          simpa [harith] using hmem

end Trie

/-! ## Properties of the lenient scanner

The segments the scanner yields are exactly the valid segments readable
before the first invalid character, and rendering them back with dots and
re-scanning is the identity.  These lemmas justify the "lenient
degradation" reading of `Match` on malformed paths. -/

theorem segsOf_eq_nil {l : List Char} (h : nextSeg l = none) :
    segsOf l = [] := by
  rw [segsOf]
  split
  · rfl
  · next s r h2 => rw [h2] at h; cases h

theorem segsOf_eq_cons {l s r : List Char} (h : nextSeg l = some (s, r)) :
    segsOf l = s :: segsOf r := by
  rw [segsOf]
  split
  · next h2 => rw [h2] at h; cases h
  · next s2 r2 h2 =>
    rw [h2] at h
    obtain ⟨h3, h4⟩ := Prod.mk.injEq _ _ _ _ ▸ Option.some.inj h
    rw [h3, h4]

theorem isSegChar_ne_dot {c : Char} (h : isSegChar c = true) : c ≠ '.' := by
  intro hc
  subst hc
  exact absurd h (by decide)

theorem scanTail_sound {l s r : List Char} (h : scanTail l = some (s, r)) :
    s.all isSegChar = true := by
  induction l generalizing s r with
  | nil =>
    simp [scanTail] at h
    obtain ⟨h1, h2⟩ := h
    subst h1
    rfl
  | cons c cs ih =>
    simp only [scanTail] at h
    by_cases hc : c = '.'
    · simp [hc] at h
      obtain ⟨h1, h2⟩ := h
      subst h1
      rfl
    · simp only [hc, if_false] at h
      by_cases hs : isSegChar c = true
      · simp only [hs, if_true] at h
        cases hst : scanTail cs with
        | none => rw [hst] at h; cases h
        | some p =>
          rw [hst] at h
          obtain ⟨s0, r0⟩ := p
          obtain ⟨h1, h2⟩ := Prod.mk.injEq _ _ _ _ ▸ Option.some.inj h
          rw [← h1]
          simp only [List.all_cons, hs, Bool.true_and]
          exact ih hst
      · simp [hs] at h

theorem nextSeg_validSegChars {l s r : List Char}
    (h : nextSeg l = some (s, r)) : validSegChars s = true := by
  cases l with
  | nil => cases h
  | cons c cs =>
    simp only [nextSeg] at h
    by_cases hc : isLowerAZ c = true
    · simp only [hc, if_true] at h
      cases hst : scanTail cs with
      | none => rw [hst] at h; cases h
      | some p =>
        rw [hst] at h
        obtain ⟨s0, r0⟩ := p
        obtain ⟨h1, h2⟩ := Prod.mk.injEq _ _ _ _ ▸ Option.some.inj h
        rw [← h1]
        simp only [validSegChars, hc, Bool.true_and]
        exact scanTail_sound hst
    · simp [hc] at h

theorem segsOf_valid (l : List Char) :
    ∀ s ∈ segsOf l, validSegChars s = true := by
  intro s hs
  cases h : nextSeg l with
  | none => rw [segsOf_eq_nil h] at hs; cases hs
  | some p =>
    obtain ⟨s0, r0⟩ := p
    rw [segsOf_eq_cons h] at hs
    rcases List.mem_cons.mp hs with h1 | h1
    · subst h1; exact nextSeg_validSegChars h
    · exact segsOf_valid r0 s h1
termination_by l.length
decreasing_by exact nextSeg_length h

theorem scanTail_all_end {s : List Char} (h : s.all isSegChar = true) :
    scanTail s = some (s, []) := by
  induction s with
  | nil => rfl
  | cons c cs ih =>
    simp only [List.all_cons, Bool.and_eq_true] at h
    rw [scanTail]
    rw [if_neg (isSegChar_ne_dot h.1), if_pos h.1, ih h.2]

theorem scanTail_all_dot {s r : List Char} (h : s.all isSegChar = true) :
    scanTail (s ++ '.' :: r) = some (s, '.' :: r) := by
  induction s with
  | nil => rfl
  | cons c cs ih =>
    simp only [List.all_cons, Bool.and_eq_true] at h
    rw [List.cons_append, scanTail]
    rw [if_neg (isSegChar_ne_dot h.1), if_pos h.1, ih h.2]

theorem nextSeg_valid_end {s : List Char} (h : validSegChars s = true) :
    nextSeg s = some (s, []) := by
  cases s with
  | nil => cases h
  | cons c cs =>
    simp only [validSegChars, Bool.and_eq_true] at h
    rw [nextSeg, if_pos h.1, scanTail_all_end h.2]
    rfl

theorem nextSeg_valid_dot {s r : List Char} (h : validSegChars s = true) :
    nextSeg (s ++ '.' :: r) = some (s, r) := by
  cases s with
  | nil => cases h
  | cons c cs =>
    simp only [validSegChars, Bool.and_eq_true] at h
    rw [List.cons_append, nextSeg, if_pos h.1, scanTail_all_dot h.2]
    rfl

/-- Rendering valid segments with dots and re-scanning is the identity:
the scanner and the canonical dotted text agree. -/
theorem segsOf_joinDots {segs : List (List Char)}
    (h : ∀ s ∈ segs, validSegChars s = true) :
    segsOf (joinDots segs) = segs := by
  induction segs with
  | nil => exact segsOf_eq_nil (show nextSeg [] = none from rfl)
  | cons s rest ih =>
    cases rest with
    | nil =>
      rw [show joinDots [s] = s from rfl]
      rw [segsOf_eq_cons (nextSeg_valid_end (h s (List.mem_singleton.mpr rfl)))]
      rw [segsOf_eq_nil (show nextSeg [] = none from rfl)]
    | cons s2 rest2 =>
      rw [show joinDots (s :: s2 :: rest2) = s ++ '.' :: joinDots (s2 :: rest2)
        from rfl]
      rw [segsOf_eq_cons
        (nextSeg_valid_dot (h s (List.mem_cons_self _ _)))]
      rw [ih (fun x hx => h x (List.mem_cons_of_mem _ hx))]

theorem validSegChars_no_dot {s : List Char} (h : validSegChars s = true) :
    s ≠ [] ∧ '.' ∉ s := by
  cases s with
  | nil => cases h
  | cons c cs =>
    simp only [validSegChars, Bool.and_eq_true, List.all_eq_true] at h
    refine ⟨List.cons_ne_nil _ _, ?_⟩
    intro hmem
    rcases List.mem_cons.mp hmem with h1 | h1
    · rw [← h1] at h
      exact absurd h.1 (by decide)
    · exact absurd (isSegChar_ne_dot (h.2 _ h1) rfl) (fun x => x)

theorem validSegChars_ne_wild {s : List Char} (h : validSegChars s = true) :
    s ≠ ['*'] := by
  intro hc
  subst hc
  exact absurd h (by decide)

/-- `strings.Split` applied to dot-free text yields a single piece. -/
theorem splitDots_no_dot {s : List Char} (h : '.' ∉ s) :
    splitDots s = [s] := by
  induction s with
  | nil => rfl
  | cons c cs ih =>
    have hc : c ≠ '.' := fun hx => h (hx ▸ List.mem_cons_self _ _)
    rw [splitDots, if_neg hc, ih (fun hx => h (List.mem_cons_of_mem _ hx))]

theorem splitDots_append_dot {s x : List Char} (h : '.' ∉ s) :
    splitDots (s ++ '.' :: x) = s :: splitDots x := by
  induction s with
  | nil =>
    rw [List.nil_append, splitDots, if_pos rfl]
  | cons c cs ih =>
    have hc : c ≠ '.' := fun hx => h (hx ▸ List.mem_cons_self _ _)
    rw [List.cons_append, splitDots, if_neg hc,
      ih (fun hx => h (List.mem_cons_of_mem _ hx))]

/-- Splitting the canonical dotted rendering of dot-free segments recovers
the segments. -/
theorem splitDots_joinDots {segs : List (List Char)} (hne : segs ≠ [])
    (h : ∀ s ∈ segs, '.' ∉ s) :
    splitDots (joinDots segs) = segs := by
  induction segs with
  | nil => exact absurd rfl hne
  | cons s rest ih =>
    cases rest with
    | nil =>
      rw [show joinDots [s] = s from rfl]
      exact splitDots_no_dot (h s (List.mem_singleton.mpr rfl))
    | cons s2 rest2 =>
      rw [show joinDots (s :: s2 :: rest2) = s ++ '.' :: joinDots (s2 :: rest2)
        from rfl]
      rw [splitDots_append_dot (h s (List.mem_cons_self _ _))]
      rw [ih (List.cons_ne_nil _ _) (fun x hx => h x (List.mem_cons_of_mem _ hx))]

namespace Trie

variable {T : Type}

/-! ## Structural lemmas about `Insert` -/

theorem lookup_setChild_self (l : List (List Char × Trie T)) (k : List Char)
    (c : Trie T) : List.lookup k (setChild l k c) = some c := by
  induction l with
  | nil => simp [setChild, List.lookup]
  | cons p rest ih =>
    obtain ⟨k0, c0⟩ := p
    rw [setChild]
    by_cases hk : k0 = k
    · rw [if_pos hk]
      simp [List.lookup]
    · rw [if_neg hk]
      rw [List.lookup]
      have : (k == k0) = false := by
        simp only [beq_eq_false_iff_ne, ne_eq]
        exact fun hx => hk hx.symm
      rw [this]
      exact ih

/-- Inserting a non-empty segment path leaves the root's value (and
pattern) unchanged: only the terminal node is marked. -/
theorem insertSegs_cons_val (t : Trie T) (s : List Char)
    (ss : List (List Char)) (v : T) (pfx : List Char) :
    (insertSegs t (s :: ss) v pfx).val = t.val := by
  cases t
  rfl

/-- Inserting the same segment path twice into the empty trie: the second
insert walks exactly the chain the first one created, overwrites the value,
and keeps the pattern set by the first insert. -/
theorem insertSegs_empty_twice (segs : List (List Char)) (v1 v2 : T)
    (pfx : List Char) :
    insertSegs (insertSegs (empty : Trie T) segs v1 pfx) segs v2 pfx =
      insertSegs (empty : Trie T) segs v2 pfx := by
  induction segs with
  | nil =>
    show node [] (some v2) (if pfx = [] then pfx else pfx) =
      node [] (some v2) (if ([] : List Char) = [] then pfx else [])
    rw [ite_self, if_pos rfl]
  | cons s ss ih =>
    show node (setChild [(s, insertSegs empty ss v1 pfx)] s
        (insertSegs ((List.lookup s
          [(s, insertSegs empty ss v1 pfx)]).getD empty) ss v2 pfx)) none [] =
      node [(s, insertSegs empty ss v2 pfx)] none []
    rw [show List.lookup s [(s, insertSegs (empty : Trie T) ss v1 pfx)] =
        some (insertSegs empty ss v1 pfx) from by simp [List.lookup]]
    rw [Option.getD_some]
    rw [show setChild [(s, insertSegs (empty : Trie T) ss v1 pfx)] s
        (insertSegs (insertSegs empty ss v1 pfx) ss v2 pfx) =
        [(s, insertSegs (insertSegs empty ss v1 pfx) ss v2 pfx)] from by
      rw [setChild, if_pos rfl]]
    rw [ih]

/-- The single-pattern trie is a chain: `entryAt` is the inserted value and
pattern at exactly the inserted path, an intermediate unvalued node at
every proper prefix, and absent elsewhere. -/
theorem entryAt_chain (segs ps : List (List Char)) (v : T)
    (pfx : List Char) :
    entryAt (insertSegs (empty : Trie T) segs v pfx) ps =
      (if ps = segs then some (some v, pfx)
       else if ps <+: segs then some ((none : Option T), ([] : List Char))
       else none) := by
  induction segs generalizing ps with
  | nil =>
    cases ps with
    | nil => rfl
    | cons p ps' =>
      rw [show insertSegs (empty : Trie T) [] v pfx =
        node [] (some v) (if ([] : List Char) = [] then pfx else []) from rfl]
      rw [entryAt]
      simp [List.lookup]
  | cons s0 segs' ih =>
    have hshape : insertSegs (empty : Trie T) (s0 :: segs') v pfx =
        node [(s0, insertSegs empty segs' v pfx)] none [] := rfl
    cases ps with
    | nil =>
      rw [hshape, entryAt]
      have h1 : ([] : List (List Char)) ≠ s0 :: segs' := by simp
      have h2 : ([] : List (List Char)) <+: s0 :: segs' := List.nil_prefix
      rw [if_neg h1, if_pos h2]
      rfl
    | cons p ps' =>
      rw [hshape, entryAt]
      dsimp only [children]
      by_cases hp : p = s0
      · subst hp
        rw [show List.lookup p [(p, insertSegs (empty : Trie T) segs' v pfx)] =
          some (insertSegs empty segs' v pfx) from by simp [List.lookup]]
        dsimp only
        rw [ih ps']
        by_cases he : ps' = segs'
        · subst he
          rw [if_pos rfl, if_pos rfl]
        · rw [if_neg he]
          have hne2 : p :: ps' ≠ p :: segs' := by
            intro hx
            cases hx
            exact he rfl
          rw [if_neg hne2]
          by_cases hpfx : ps' <+: segs'
          · rw [if_pos hpfx, if_pos (List.cons_prefix_cons.mpr ⟨rfl, hpfx⟩)]
          · rw [if_neg hpfx,
              if_neg (fun hx => hpfx (List.cons_prefix_cons.mp hx).2)]
      · rw [show List.lookup p [(s0, insertSegs (empty : Trie T) segs' v pfx)] =
          none from by
            rw [List.lookup]
            rw [show (p == s0) = false from by
              simpa using hp]
            rfl]
        have h1 : p :: ps' ≠ s0 :: segs' := by
          intro hx
          cases hx
          exact hp rfl
        have h2 : ¬ (p :: ps' <+: s0 :: segs') :=
          fun hx => hp (List.cons_prefix_cons.mp hx).1
        rw [if_neg h1, if_neg h2]

/-- Reflexivity of wildcard prefix matching. -/
theorem wildPfx_refl (ps : List (List Char)) : wildPfx ps ps = true := by
  induction ps with
  | nil => rfl
  | cons p ps ih =>
    rw [wildPfx]
    simp [ih]

/-- A pattern longer than the path never matches. -/
theorem wildPfx_length_le {ps path : List (List Char)}
    (h : wildPfx ps path = true) : ps.length ≤ path.length := by
  induction ps generalizing path with
  | nil => simp
  | cons p ps ih =>
    cases path with
    | nil => cases h
    | cons s ss =>
      rw [wildPfx, Bool.and_eq_true] at h
      simpa using ih h.2

/-- A wildcard-matching prefix of matching length is determined segment by
segment; used to show that a pattern matches a path prefix of its own
length only along its own segments (up to wildcards). -/
theorem wildPfx_prefix {ps path : List (List Char)}
    (h : wildPfx ps path = true) :
    ∀ pre, pre <+: ps → wildPfx pre path = true := by
  induction ps generalizing path with
  | nil =>
    intro pre hpre
    rw [List.prefix_nil.mp hpre]
    rfl
  | cons p ps ih =>
    intro pre hpre
    cases pre with
    | nil => rfl
    | cons q qs =>
      obtain ⟨hq, hqs⟩ := List.cons_prefix_cons.mp hpre
      cases path with
      | nil => cases h
      | cons s ss =>
        rw [wildPfx, Bool.and_eq_true] at h
        rw [wildPfx, Bool.and_eq_true]
        subst hq
        exact ⟨h.1, ih h.2 qs hqs⟩

/-- A valid literal segment is a valid insert segment. -/
theorem validSegment_of_validSegChars {s : List Char}
    (h : validSegChars s = true) : validSegment s true = true := by
  unfold validSegment
  rw [if_neg (validSegChars_no_dot h).1]
  by_cases hw : s = ['*']
  · exact absurd hw (validSegChars_ne_wild h)
  · rw [if_neg (by simp [hw])]
    exact h

/-- The wildcard segment is a valid insert segment. -/
theorem validSegment_wild : validSegment ['*'] true = true := by decide

theorem joinDots_ne_nil {segs : List (List Char)} (hne : segs ≠ [])
    (h : ∀ s ∈ segs, s ≠ []) : joinDots segs ≠ [] := by
  cases segs with
  | nil => exact absurd rfl hne
  | cons s rest =>
    cases rest with
    | nil => exact h s (List.mem_singleton.mpr rfl)
    | cons s2 rest2 =>
      rw [show joinDots (s :: s2 :: rest2) = s ++ '.' :: joinDots (s2 :: rest2)
        from rfl]
      simp

/-- `Insert` succeeds on the canonical rendering of a non-empty list of
valid segments (each either `*` or literal) that are not all wildcards,
and walks exactly those segments. -/
theorem insertChars_ok {segs : List (List Char)} (t : Trie T) (v : T)
    (hne : segs ≠ [])
    (hv : ∀ s ∈ segs, s = ['*'] ∨ validSegChars s = true)
    (hnw : ¬ ∀ s ∈ segs, s = ['*']) :
    t.insertChars (joinDots segs) v =
      .ok (insertSegs t segs v (joinDots segs)) := by
  have hseg_ne : ∀ s ∈ segs, s ≠ [] := by
    intro s hs
    rcases hv s hs with h1 | h1
    · rw [h1]; simp
    · exact (validSegChars_no_dot h1).1
  have hseg_nd : ∀ s ∈ segs, '.' ∉ s := by
    intro s hs
    rcases hv s hs with h1 | h1
    · rw [h1]; simp
    · exact (validSegChars_no_dot h1).2
  have hjoin : joinDots segs ≠ [] := joinDots_ne_nil hne hseg_ne
  have hsplit : splitDots (joinDots segs) = segs :=
    splitDots_joinDots hne hseg_nd
  unfold insertChars splitAndValidate
  rw [if_neg hjoin]
  simp only [hsplit]
  have hall : segs.all (fun s => validSegment s true) = true := by
    rw [List.all_eq_true]
    intro s hs
    rcases hv s hs with h1 | h1
    · rw [h1]; exact validSegment_wild
    · exact validSegment_of_validSegChars h1
  rw [if_pos hall]
  dsimp only
  rw [if_neg hne]
  have hnw2 : ¬ (segs.all (fun s => s = ['*']) = true) := by
    rw [List.all_eq_true]
    intro hx
    exact hnw (fun s hs => by simpa using hx s hs)
  rw [if_neg hnw2]

/-- `MatchWithPattern` expressed over an explicit segment list. -/
def matchSegsPat (t : Trie T) (path : List (List Char)) :
    Option T × List Char :=
  let st := patSegsDFS t path 0 ⟨-1, none, []⟩
  if st.bestDepth < 0 then (none, []) else (st.bestVal, st.bestPat)

theorem matchWithPattern_eq_matchSegsPat (t : Trie T) (r : String) :
    t.matchWithPattern r = matchSegsPat t (segsOf r.toList) := by
  unfold matchWithPattern matchSegsPat
  rw [patDFS_eq_segs]

theorem matchSegsVal_eq_firstAtMax (t : Trie T) (path : List (List Char)) :
    matchSegsVal t path =
      (firstAtMax (candsSegs t path 0)).bind (fun c => c.2.1) := by
  unfold matchSegsVal firstAtMax
  rw [matchSegsDFS_eq_foldl]
  cases hcs : candsSegs t path 0 with
  | nil => simp
  | cons c0 cs' =>
    have hex : ∃ c ∈ c0 :: cs',
        (c.1 : Int) > (⟨-1, none⟩ : MState T).bestDepth :=
      ⟨c0, List.mem_cons_self _ _, by simp; omega⟩
    obtain ⟨c, hcm, hcd⟩ := foldl_mstep_firstmax _ _ hex
    rw [hcd]
    have hge : (0 : Int) ≤ maxDepth (c0 :: cs') (-1) :=
      le_trans (by omega) (mem_le_maxDepth (List.mem_cons_self c0 cs') _)
    have : ¬ (maxDepth (c0 :: cs')
        ((⟨-1, none⟩ : MState T)).bestDepth < 0) := by
      simpa using by omega
    rw [if_neg this]
    have hcm' : (c0 :: cs').find?
        (fun x => (x.1 : Int) == maxDepth (c0 :: cs') (-1)) = some c := hcm
    rw [hcm']
    rfl

theorem matchSegsPat_eq_firstAtMax (t : Trie T) (path : List (List Char)) :
    matchSegsPat t path =
      (match firstAtMax (candsSegs t path 0) with
       | none => (none, [])
       | some c => (c.2.1, c.2.2)) := by
  unfold matchSegsPat firstAtMax
  rw [patSegsDFS_eq_foldl]
  cases hcs : candsSegs t path 0 with
  | nil => simp
  | cons c0 cs' =>
    have hex : ∃ c ∈ c0 :: cs',
        (c.1 : Int) > (⟨-1, none, []⟩ : PState T).bestDepth :=
      ⟨c0, List.mem_cons_self _ _, by simp; omega⟩
    obtain ⟨c, hcm, hcd⟩ := foldl_pstep_firstmax _ _ hex
    rw [hcd]
    have hge : (0 : Int) ≤ maxDepth (c0 :: cs') (-1) :=
      le_trans (by omega) (mem_le_maxDepth (List.mem_cons_self c0 cs') _)
    have : ¬ (maxDepth (c0 :: cs')
        ((⟨-1, none, []⟩ : PState T)).bestDepth < 0) := by
      simpa using by omega
    rw [if_neg this]
    have hcm' : (c0 :: cs').find?
        (fun x => (x.1 : Int) == maxDepth (c0 :: cs') (-1)) = some c := hcm
    rw [hcm']

/-- The first candidate extractor applied to a list whose members are all
one and the same candidate. -/
theorem firstAtMax_of_all_eq {cs : List (Cand T)} {x : Cand T}
    (h0 : cs ≠ []) (h : ∀ c ∈ cs, c = x) : firstAtMax cs = some x := by
  cases cs with
  | nil => exact absurd rfl h0
  | cons c0 cs' =>
    have hc0 : c0 = x := h c0 (List.mem_cons_self _ _)
    have hmax : maxDepth (c0 :: cs') (-1) = (x.1 : Int) := by
      refine le_antisymm ?_ ?_
      · refine maxDepth_le (by omega) ?_
        intro c hc
        rw [h c hc]
      · have hx : x ∈ c0 :: cs' := by
          rw [← hc0]
          exact List.mem_cons_self _ _
        exact mem_le_maxDepth hx (-1 : Int)
    unfold firstAtMax
    rw [hmax]
    rw [List.find?_cons_of_pos _ (by rw [hc0]; simp)]
    rw [hc0]

end Trie

/-- Fuelled version of `segsOf`, for evaluating concrete inputs in
proofs (the two agree when the fuel exceeds the input length). -/
def segsOfFuel : Nat → List Char → List (List Char)
  | 0, _ => []
  | fuel + 1, l =>
    match nextSeg l with
    | none => []
    | some (seg, r) => seg :: segsOfFuel fuel r

theorem segsOf_eq_fuel : ∀ (fuel : Nat) (l : List Char),
    l.length < fuel → segsOf l = segsOfFuel fuel l := by
  intro fuel
  induction fuel with
  | zero => intro l h; omega
  | succ k ih =>
    intro l h
    rw [segsOfFuel]
    cases hn : nextSeg l with
    | none => exact segsOf_eq_nil hn
    | some p =>
      obtain ⟨seg, r⟩ := p
      rw [segsOf_eq_cons hn]
      have := nextSeg_length hn
      rw [ih r (by omega)]

/-- `segsOf` on a string, in evaluable form. -/
theorem segsOf_toList (r : String) :
    segsOf r.toList = segsOfFuel (r.toList.length + 1) r.toList :=
  segsOf_eq_fuel _ _ (by omega)

namespace Trie

variable {T : Type}

/-- A successful `Insert` never touches the root's value: the prefix has at
least one segment, so only a descendant node is marked. -/
theorem insertChars_val {t t' : Trie T} {p : List Char} {v : T}
    (h : t.insertChars p v = .ok t') : t'.val = t.val := by
  unfold insertChars at h
  cases hs : splitAndValidate p true with
  | none => rw [hs] at h; cases h
  | some segs =>
    rw [hs] at h
    dsimp only at h
    by_cases h1 : segs = []
    · rw [if_pos h1] at h; cases h
    · rw [if_neg h1] at h
      by_cases h2 : segs.all (fun s => s = ['*']) = true
      · rw [if_pos (by simpa using h2)] at h; cases h
      · rw [if_neg (by simpa using h2)] at h
        cases segs with
        | nil => exact absurd rfl h1
        | cons s ss =>
          rw [← Except.ok.inj h]
          exact insertSegs_cons_val t s ss v p

/-- `splitDots` never yields the empty list. -/
theorem splitDots_ne_nil (l : List Char) : splitDots l ≠ [] := by
  cases l with
  | nil => simp [splitDots]
  | cons c cs =>
    rw [splitDots]
    by_cases hc : c = '.'
    · rw [if_pos hc]; simp
    · rw [if_neg hc]
      cases h : splitDots cs with
      | nil => simp
      | cons s rest => simp

end Trie

/-- `validPrefixSegment` of the mapper package: empty segments invalid,
`*` allowed, otherwise `[a-z][a-z0-9_]*`. -/
def validPfxSegment (seg : List Char) : Bool :=
  if seg = [] then false
  else if seg = ['*'] then true
  else validSegChars seg

namespace Trie

variable {T : Type}

/-- The mapper's `validPrefixSegment` and the trie's `validSegment` with
wildcards allowed implement the same rules. -/
theorem validSegment_eq_validPfx (s : List Char) :
    validSegment s true = validPfxSegment s := by
  unfold validSegment validPfxSegment
  by_cases h1 : s = []
  · rw [if_pos h1, if_pos h1]
  · rw [if_neg h1, if_neg h1]
    by_cases h2 : s = ['*']
    · rw [if_pos (by simp [h2]), if_pos h2]
    · rw [if_neg (by simp [h2]), if_neg h2]

/-- `Insert` succeeds on any pattern whose split passes the mapper-side
validation (non-empty, all segments valid, not all wildcards), and walks
the split segments. -/
theorem insertChars_ok_of_valid {p : List Char} (t : Trie T) (v : T)
    (hne : p ≠ []) (hv : (splitDots p).all validPfxSegment = true)
    (hnw : ¬ ((splitDots p).all (fun s => s = ['*']) = true)) :
    t.insertChars p v = .ok (insertSegs t (splitDots p) v p) := by
  unfold insertChars splitAndValidate
  rw [if_neg hne]
  have hall : (splitDots p).all (fun s => validSegment s true) = true := by
    rw [List.all_eq_true] at hv ⊢
    intro s hs
    rw [validSegment_eq_validPfx]
    exact hv s hs
  simp only
  rw [if_pos hall]
  dsimp only
  rw [if_neg (splitDots_ne_nil p), if_neg (by simpa using hnw)]

/-- If the candidate list is non-empty, `firstAtMax` finds a candidate. -/
theorem firstAtMax_isSome {cs : List (Cand T)} (h : cs ≠ []) :
    ∃ c, firstAtMax cs = some c := by
  cases cs with
  | nil => exact absurd rfl h
  | cons c0 cs' =>
    have hex : ∃ c ∈ c0 :: cs', (c.1 : Int) >
        (⟨-1, (none : Option T)⟩ : MState T).bestDepth :=
      ⟨c0, List.mem_cons_self _ _, by simp; omega⟩
    obtain ⟨c, hcm, _⟩ := foldl_mstep_firstmax _ _ hex
    exact ⟨c, hcm⟩

/-- All lookups against the single-pattern trie, by whether the pattern
matches the path: the inserted value and pattern when it does, no match at
all when it does not. -/
theorem chain_matchSegs (segs path : List (List Char)) (v : T)
    (pfx : List Char) :
    (wildPfx segs path = true →
      matchSegsVal (insertSegs Trie.empty segs v pfx) path = some v ∧
      matchSegsPat (insertSegs Trie.empty segs v pfx) path = (some v, pfx)) ∧
    (wildPfx segs path = false →
      matchSegsVal (insertSegs Trie.empty segs v pfx) path = none ∧
      matchSegsPat (insertSegs Trie.empty segs v pfx) path = (none, [])) := by
  have hall : ∀ c ∈ candsSegs (insertSegs Trie.empty segs v pfx) path 0,
      wildPfx segs path = true ∧ c = (segs.length, some v, pfx) := by
    intro c hc
    obtain ⟨ps, hwp, hen, hsm, hd⟩ := candsSegs_sound hc
    rw [entryAt_chain] at hen
    by_cases h1 : ps = segs
    · subst h1
      rw [if_pos rfl] at hen
      obtain ⟨he1, he2⟩ := Prod.mk.injEq _ _ _ _ ▸ Option.some.inj hen
      refine ⟨hwp, ?_⟩
      obtain ⟨c1, c2, c3⟩ := c
      simp only [Prod.mk.injEq]
      exact ⟨by simpa using hd, he1.symm, he2.symm⟩
    · rw [if_neg h1] at hen
      by_cases h2 : ps <+: segs
      · rw [if_pos h2] at hen
        obtain ⟨he1, _⟩ := Prod.mk.injEq _ _ _ _ ▸ Option.some.inj hen
        rw [← he1] at hsm
        cases hsm
      · rw [if_neg h2] at hen
        cases hen
  constructor
  · intro hw
    have hx : ((0 : Nat) + segs.length, some v, pfx) ∈
        candsSegs (insertSegs Trie.empty segs v pfx) path 0 :=
      candsSegs_complete 0 hw (by rw [entryAt_chain, if_pos rfl])
    have hne : candsSegs (insertSegs Trie.empty segs v pfx) path 0 ≠ [] := by
      intro h0
      rw [h0] at hx
      cases hx
    have hfm := firstAtMax_of_all_eq (x := (segs.length, some v, pfx)) hne
      (fun c hc => (hall c hc).2)
    constructor
    · rw [matchSegsVal_eq_firstAtMax, hfm]
      rfl
    · rw [matchSegsPat_eq_firstAtMax, hfm]
  · intro hw
    have hnil : candsSegs (insertSegs Trie.empty segs v pfx) path 0 = [] := by
      rw [List.eq_nil_iff_forall_not_mem]
      intro c hc
      have := (hall c hc).1
      rw [hw] at this
      cases this
    constructor
    · rw [matchSegsVal_eq_firstAtMax, hnil]
      rfl
    · rw [matchSegsPat_eq_firstAtMax, hnil]
      rfl

/-- A trie whose root carries no value reports no match on the empty
reason: the scanner yields no segments, so only the root is visited. -/
theorem matchVal_empty_reason {t : Trie T} (h : t.val = none) :
    t.matchVal "" = none := by
  rw [matchVal_eq_matchSegsVal]
  rw [show segsOf ("" : String).toList = [] from
    segsOf_eq_nil (show nextSeg [] = none from rfl)]
  unfold matchSegsVal matchSegsDFS mupd
  rw [h]
  rfl

end Trie

/-! ## The mapper package

`code.Code` is an opaque string label; `codes.Code` (gRPC) is a `uint32`,
modelled as `Nat` with the Go `int`-to-`uint32` conversion made explicit.
Go maps are association lists; `map[k] = v` is update-or-append. -/

/-- `code.Code`: an opaque, already-validated string label. -/
abbrev Code := String

/-- `google.golang.org/grpc/codes.Code` (`uint32`). -/
abbrev GrpcCode := Nat

/-- The Go conversion `codes.Code(v)` from `int`: truncation mod `2^32`. -/
def toGrpcCode (v : Int) : GrpcCode := (v % (2 ^ 32)).toNat

/-- `codes.Internal`. -/
def grpcInternal : GrpcCode := 13

/-- `reason.Normalize`: trim whitespace, lower-case, `/` → `.`, `-` → `_`.
Character-by-character model of the Go transformations. -/
def normalizeChars (l : List Char) : List Char :=
  let t := ((l.dropWhile Char.isWhitespace).reverse.dropWhile
    Char.isWhitespace).reverse
  if t = [] then []
  else (t.map Char.toLower).map fun c =>
    if c = '/' then '.' else if c = '-' then '_' else c

/-- Update-or-append on an association-list map (Go `m[k] = v`). -/
def mapSet {A : Type} : List (Code × A) → Code → A → List (Code × A)
  | [], k, v => [(k, v)]
  | (k0, v0) :: rest, k, v =>
    if k0 = k then (k, v) :: rest else (k0, v0) :: mapSet rest k v

/-- `prefixRule` of the builder: the raw pattern text (validated only at
build time) and the numeric transport value. -/
structure PfxRule where
  pfx : String
  val : Int
  deriving DecidableEq

/-- The mutable accumulation `builder` of the mapper package. -/
structure Builder where
  httpDefaults : List (Code × Int)
  grpcDefaults : List (Code × Int)
  httpOverride : List (Code × Int)
  grpcOverride : List (Code × Int)
  httpPfxRules : List (Code × List PfxRule)
  grpcPfxRules : List (Code × List PfxRule)
  fallbackHTTP : Int
  fallbackGRPC : GrpcCode

/-- `newBuilder`: empty maps, hard fallbacks 500 / `codes.Internal`. -/
def newBuilder : Builder :=
  { httpDefaults := [], grpcDefaults := [], httpOverride := [],
    grpcOverride := [], httpPfxRules := [], grpcPfxRules := [],
    fallbackHTTP := 500, fallbackGRPC := grpcInternal }

/-- `defaultHTTP` of defaults.go, with `net/http` constants spelled out. -/
def defaultHTTP : List (Code × Int) :=
  [("internal", 500), ("unavailable", 503), ("not_ready", 503),
   ("draining", 503), ("overloaded", 503), ("dependency_failed", 502),
   ("timeout", 504), ("canceled", 408),
   ("invalid", 400), ("missing", 400), ("unsupported", 400),
   ("expired", 400), ("deprecation_rejected", 400), ("too_early", 425),
   ("not_found", 404), ("gone", 410),
   ("already_exists", 409), ("conflict", 409), ("stale_version", 409),
   ("precondition_failed", 412),
   ("unauthenticated", 401), ("invalid_credentials", 401),
   ("token_invalid", 401), ("token_expired", 401), ("token_revoked", 401),
   ("session_expired", 401), ("permission_denied", 403),
   ("throttled", 429), ("rate_limited", 429), ("quota_exceeded", 429)]

/-- `defaultGRPC` of defaults.go, as the `int` values the builder stores
(`grpc/codes` numeric values). -/
def defaultGRPC : List (Code × Int) :=
  [("internal", 13),
   ("invalid", 3), ("missing", 3), ("unsupported", 3),
   ("precondition_failed", 9), ("dependency_failed", 9), ("expired", 9),
   ("too_early", 9),
   ("not_found", 5), ("gone", 5), ("deprecation_rejected", 9),
   ("already_exists", 6), ("conflict", 10), ("stale_version", 10),
   ("unauthenticated", 16), ("invalid_credentials", 16),
   ("token_invalid", 16), ("token_expired", 16), ("token_revoked", 16),
   ("session_expired", 16), ("permission_denied", 7),
   ("unavailable", 14), ("not_ready", 14), ("draining", 14),
   ("overloaded", 14),
   ("timeout", 4), ("canceled", 1),
   ("throttled", 8), ("rate_limited", 8), ("quota_exceeded", 8)]

/-- Step (1) of `New`: seed the builder with the library defaults (the Go
map ranges have distinct keys, so the fold order is immaterial). -/
def seedDefaults (b : Builder) : Builder :=
  { b with
    httpDefaults := defaultHTTP.foldl (fun m p => mapSet m p.1 p.2)
      b.httpDefaults
    grpcDefaults := defaultGRPC.foldl (fun m p => mapSet m p.1 p.2)
      b.grpcDefaults }

/-- The functional options of options.go, as explicit directives. -/
inductive MOption where
  | withHTTPDefault (c : Code) (v : Int)
  | withGRPCDefault (c : Code) (v : Int)
  | withHTTPOverride (c : Code) (v : Int)
  | withGRPCOverride (c : Code) (v : Int)
  | withHTTPPfx (c : Code) (p : String) (v : Int)
  | withGRPCPfx (c : Code) (p : String) (v : Int)

/-- Application of one option to the builder (the closure bodies of
options.go; the two prefix options append a rule to the per-code slice). -/
def applyOpt (b : Builder) : MOption → Builder
  | .withHTTPDefault c v => { b with httpDefaults := mapSet b.httpDefaults c v }
  | .withGRPCDefault c v => { b with grpcDefaults := mapSet b.grpcDefaults c v }
  | .withHTTPOverride c v => { b with httpOverride := mapSet b.httpOverride c v }
  | .withGRPCOverride c v => { b with grpcOverride := mapSet b.grpcOverride c v }
  | .withHTTPPfx c p v =>
    let rules := ((List.lookup c b.httpPfxRules).getD []) ++ [⟨p, v⟩]
    { b with httpPfxRules := mapSet b.httpPfxRules c rules }
  | .withGRPCPfx c p v =>
    let rules := ((List.lookup c b.grpcPfxRules).getD []) ++ [⟨p, v⟩]
    { b with grpcPfxRules := mapSet b.grpcPfxRules c rules }

/-- The error cases of `normalizeAndValidatePrefix`. -/
inductive PfxErr where
  | emptyPfx
  | invalidSegment (seg : List Char)
  | allWildcard
  deriving DecidableEq

/-- `normalizeAndValidatePrefix`: normalize the raw text, reject an empty
result, reject at the first invalid segment, reject all-wildcard
patterns; returns the canonical (normalized) pattern. -/
def normalizeAndValidatePfx (raw : String) : Except PfxErr (List Char) :=
  let p := normalizeChars raw.toList
  if p = [] then .error .emptyPfx
  else
    let segs := splitDots p
    match segs.find? (fun s => ! validPfxSegment s) with
    | some s => .error (.invalidSegment s)
    | none =>
      if segs.all (fun s => s = ['*']) then .error .allWildcard
      else .ok p

/-- The build errors of `New`: a malformed raw pattern (reported with the
family, the offending code and the raw pattern text), or a trie insert
failure (reported with the normalized pattern). -/
inductive BuildErr where
  | invalidPfx (family : String) (c : Code) (raw : String)
  | insertFail (family : String) (c : Code) (p : List Char)

/-- The per-code rule loop of `New` steps (3)/(4): normalize and validate
each raw rule, then insert it into the code's trie; abort on the first
failure. -/
def buildCodeTrie {V : Type} (family : String) (conv : Int → V) (c : Code) :
    List PfxRule → Trie V → Except BuildErr (Trie V)
  | [], t => .ok t
  | r :: rest, t =>
    match normalizeAndValidatePfx r.pfx with
    | .error _ => .error (.invalidPfx family c r.pfx)
    | .ok p =>
      match t.insertChars p (conv r.val) with
      | .error _ => .error (.insertFail family c p)
      | .ok t' => buildCodeTrie family conv c rest t'

/-- The per-code trie map construction of `New`: codes with no rules get no
trie (`continue`); otherwise build the code's trie from its rules. -/
def buildTries {V : Type} (family : String) (conv : Int → V) :
    List (Code × List PfxRule) → Except BuildErr (List (Code × Trie V))
  | [] => .ok []
  | (c, rules) :: rest =>
    if rules = [] then buildTries family conv rest
    else
      match buildCodeTrie family conv c rules Trie.empty with
      | .error e => .error e
      | .ok t =>
        match buildTries family conv rest with
        | .error e => .error e
        | .ok m => .ok ((c, t) :: m)

/-- The immutable `mapper` snapshot.  The per-code trie maps hold nullable
trie pointers (`Option`), matching the `ok && idx != nil` guard of the
lookups; `New` only ever stores non-nil tries. -/
structure Mapper where
  httpDefault : List (Code × Int)
  grpcDefault : List (Code × GrpcCode)
  httpOverride : List (Code × Int)
  grpcOverride : List (Code × GrpcCode)
  httpTrie : List (Code × Option (Trie Int))
  grpcTrie : List (Code × Option (Trie GrpcCode))
  fallbackHTTP : Int
  fallbackGRPC : GrpcCode

/-- `mapper.New`: seed defaults, apply the options, build the per-code
tries for both families, freeze the snapshot.  The freeze helpers copy the
maps (the identity in a value model) and convert the gRPC `int` values to
`codes.Code`.  On any build failure the whole construction returns the
error and no mapper. -/
def New (opts : List MOption) : Except BuildErr Mapper :=
  let b := opts.foldl applyOpt (seedDefaults newBuilder)
  match buildTries "http" (fun v => v) b.httpPfxRules with
  | .error e => .error e
  | .ok httpT =>
    match buildTries "grpc" toGrpcCode b.grpcPfxRules with
    | .error e => .error e
    | .ok grpcT =>
      .ok
        { httpDefault := b.httpDefaults
          grpcDefault := b.grpcDefaults.map fun p => (p.1, toGrpcCode p.2)
          httpOverride := b.httpOverride
          grpcOverride := b.grpcOverride.map fun p => (p.1, toGrpcCode p.2)
          httpTrie := httpT.map fun p => (p.1, some p.2)
          grpcTrie := grpcT.map fun p => (p.1, some p.2)
          fallbackHTTP := b.fallbackHTTP
          fallbackGRPC := b.fallbackGRPC }

/-- The trie tier of a lookup: present map entry, non-nil trie, successful
`Match` (the `ok && idx != nil` guard followed by `idx.Match(reason)`). -/
def trieHit {V : Type} (mp : List (Code × Option (Trie V))) (c : Code)
    (r : String) : Option V :=
  match List.lookup c mp with
  | some (some idx) => idx.matchVal r
  | _ => none

/-- The trie tier through `MatchWithPattern` (used by `Explain`). -/
def trieHitPat {V : Type} (mp : List (Code × Option (Trie V))) (c : Code)
    (r : String) : Option (V × List Char) :=
  match List.lookup c mp with
  | some (some idx) =>
    match idx.matchWithPattern r with
    | (some v, q) => some (v, q)
    | (none, _) => none
  | _ => none

namespace Mapper

/-- `HTTPStatus`: override, then per-code trie match, then per-code
default, then the hardcoded ultimate fallback 500. -/
def HTTPStatus (m : Mapper) (c : Code) (r : String) : Int :=
  match List.lookup c m.httpOverride with
  | some v => v
  | none =>
    match trieHit m.httpTrie c r with
    | some v => v
    | none =>
      match List.lookup c m.httpDefault with
      | some v => v
      | none => 500

/-- `GRPCStatus`: same precedence, hardcoded fallback `codes.Internal`. -/
def GRPCStatus (m : Mapper) (c : Code) (r : String) : GrpcCode :=
  match List.lookup c m.grpcOverride with
  | some v => v
  | none =>
    match trieHit m.grpcTrie c r with
    | some v => v
    | none =>
      match List.lookup c m.grpcDefault with
      | some v => v
      | none => grpcInternal

/-- `apis.Status`: the pair of resolved statuses. -/
structure StatusPair where
  HTTP : Int
  GRPC : GrpcCode
  deriving DecidableEq

/-- `Status` resolves both families from the same inputs. -/
def Status (m : Mapper) (c : Code) (r : String) : StatusPair :=
  ⟨m.HTTPStatus c r, m.GRPCStatus c r⟩

/-- One line of `Explain` output, with the `Sprintf` rendering abstracted
into fields: the tier that matched, the pattern text (for prefix hits),
and the numeric value printed in the line. -/
structure ExpLine (V : Type) where
  source : String
  pat : Option String
  value : V
  deriving DecidableEq

/-- `explainHTTP`: the same four-tier walk as `HTTPStatus`, returning the
tier and the formatted line (structured). -/
def explainHTTP (m : Mapper) (c : Code) (r : String) :
    String × ExpLine Int :=
  match List.lookup c m.httpOverride with
  | some v => ("override", ⟨"override", none, v⟩)
  | none =>
    match trieHitPat m.httpTrie c r with
    | some (v, q) => ("prefix", ⟨"prefix", some (String.mk q), v⟩)
    | none =>
      match List.lookup c m.httpDefault with
      | some v => ("default", ⟨"default", none, v⟩)
      | none => ("fallback", ⟨"fallback", none, m.fallbackHTTP⟩)

/-- `explainGRPC`: same walk for the gRPC family. -/
def explainGRPC (m : Mapper) (c : Code) (r : String) :
    String × ExpLine GrpcCode :=
  match List.lookup c m.grpcOverride with
  | some v => ("override", ⟨"override", none, v⟩)
  | none =>
    match trieHitPat m.grpcTrie c r with
    | some (v, q) => ("prefix", ⟨"prefix", some (String.mk q), v⟩)
    | none =>
      match List.lookup c m.grpcDefault with
      | some v => ("default", ⟨"default", none, v⟩)
      | none => ("fallback", ⟨"fallback", none, m.fallbackGRPC⟩)

/-- The trace `Explain` produces, structured: the echoed inputs and the two
per-family lines.  (The Go switch over the returned source only passes
through the four known tiers, which are the only values `explainHTTP` /
`explainGRPC` produce, so the defensive `source=unknown` arm is
unreachable and not modelled.) -/
structure Explanation where
  code : Code
  reason : String
  http : String × ExpLine Int
  grpc : String × ExpLine GrpcCode

/-- `Explain`: echo the inputs and re-run the four-tier walk per family. -/
def Explain (m : Mapper) (c : Code) (r : String) : Explanation :=
  ⟨c, r, m.explainHTTP c r, m.explainGRPC c r⟩

/-- The tier the resolution walk of `HTTPStatus` takes, named as `Explain`
names tiers. -/
def httpTier (m : Mapper) (c : Code) (r : String) : String :=
  match List.lookup c m.httpOverride with
  | some _ => "override"
  | none =>
    match trieHit m.httpTrie c r with
    | some _ => "prefix"
    | none =>
      match List.lookup c m.httpDefault with
      | some _ => "default"
      | none => "fallback"

/-- The tier the resolution walk of `GRPCStatus` takes. -/
def grpcTier (m : Mapper) (c : Code) (r : String) : String :=
  match List.lookup c m.grpcOverride with
  | some _ => "override"
  | none =>
    match trieHit m.grpcTrie c r with
    | some _ => "prefix"
    | none =>
      match List.lookup c m.grpcDefault with
      | some _ => "default"
      | none => "fallback"

end Mapper

/-- The two trie-tier tests agree: `Match` succeeds with value `v` exactly
when `MatchWithPattern` succeeds with value `v` (and some pattern). -/
theorem trieHit_eq_pat {V : Type} (mp : List (Code × Option (Trie V)))
    (c : Code) (r : String) :
    trieHit mp c r = (trieHitPat mp c r).map Prod.fst := by
  unfold trieHit trieHitPat
  cases List.lookup c mp with
  | none => rfl
  | some o =>
    cases o with
    | none => rfl
    | some idx =>
      dsimp only
      rw [Trie.matchVal_eq_matchWithPattern_fst]
      cases hw : idx.matchWithPattern r with
      | mk v q =>
        cases v with
        | none => rfl
        | some v0 => rfl

/-- No option touches the global fallbacks. -/
theorem applyOpt_fallback (b : Builder) (o : MOption) :
    (applyOpt b o).fallbackHTTP = b.fallbackHTTP ∧
    (applyOpt b o).fallbackGRPC = b.fallbackGRPC := by
  cases o <;> exact ⟨rfl, rfl⟩

theorem foldl_applyOpt_fallback (opts : List MOption) (b : Builder) :
    (opts.foldl applyOpt b).fallbackHTTP = b.fallbackHTTP ∧
    (opts.foldl applyOpt b).fallbackGRPC = b.fallbackGRPC := by
  induction opts generalizing b with
  | nil => exact ⟨rfl, rfl⟩
  | cons o os ih =>
    rw [List.foldl_cons]
    obtain ⟨h1, h2⟩ := applyOpt_fallback b o
    obtain ⟨h3, h4⟩ := ih (applyOpt b o)
    exact ⟨h3.trans h1, h4.trans h2⟩

/-- Every mapper `New` builds carries the constant global fallbacks
500 / `codes.Internal`. -/
theorem New_fallback {opts : List MOption} {m : Mapper}
    (h : New opts = .ok m) :
    m.fallbackHTTP = 500 ∧ m.fallbackGRPC = grpcInternal := by
  unfold New at h
  dsimp only at h
  cases h1 : buildTries "http" (fun v => v)
      (opts.foldl applyOpt (seedDefaults newBuilder)).httpPfxRules with
  | error e => rw [h1] at h; cases h
  | ok httpT =>
    rw [h1] at h
    dsimp only at h
    cases h2 : buildTries "grpc" toGrpcCode
        (opts.foldl applyOpt (seedDefaults newBuilder)).grpcPfxRules with
    | error e => rw [h2] at h; cases h
    | ok grpcT =>
      rw [h2] at h
      dsimp only at h
      rw [← Except.ok.inj h]
      obtain ⟨hf1, hf2⟩ :=
        foldl_applyOpt_fallback opts (seedDefaults newBuilder)
      exact ⟨hf1, hf2⟩

/-- Lookup through the freeze step that wraps each built trie in `some`. -/
theorem lookup_map_some {V : Type} (l : List (Code × Trie V)) (c : Code) :
    List.lookup c (l.map fun p => (p.1, some p.2)) =
      (List.lookup c l).map some := by
  induction l with
  | nil => rfl
  | cons p rest ih =>
    obtain ⟨k, t⟩ := p
    rw [List.map_cons, List.lookup_cons, List.lookup_cons]
    by_cases hk : c == k
    · rw [hk]
      rfl
    · rw [show (c == k) = false from by simpa using hk]
      exact ih

/-- The per-rule loop of `New` preserves the root value of the trie it
builds into. -/
theorem buildCodeTrie_val {V : Type} {family : String} {conv : Int → V}
    {c : Code} {rules : List PfxRule} {t t' : Trie V}
    (h : buildCodeTrie family conv c rules t = .ok t') : t'.val = t.val := by
  induction rules generalizing t with
  | nil =>
    rw [buildCodeTrie] at h
    rw [← Except.ok.inj h]
  | cons r rest ih =>
    rw [buildCodeTrie] at h
    cases hn : normalizeAndValidatePfx r.pfx with
    | error e => rw [hn] at h; cases h
    | ok p =>
      rw [hn] at h
      dsimp only at h
      cases hi : t.insertChars p (conv r.val) with
      | error e => rw [hi] at h; cases h
      | ok t2 =>
        rw [hi] at h
        dsimp only at h
        exact (ih h).trans (Trie.insertChars_val hi)

/-- Every trie `New` stores carries no value at its root (all patterns
have at least one segment). -/
theorem buildTries_root_val {V : Type} {family : String} {conv : Int → V}
    {l : List (Code × List PfxRule)} {mp : List (Code × Trie V)}
    (h : buildTries family conv l = .ok mp) :
    ∀ p ∈ mp, p.2.val = none := by
  induction l generalizing mp with
  | nil =>
    rw [buildTries] at h
    rw [← Except.ok.inj h]
    simp
  | cons e rest ih =>
    obtain ⟨c, rules⟩ := e
    rw [buildTries] at h
    by_cases h0 : rules = []
    · rw [if_pos h0] at h
      exact ih h
    · rw [if_neg h0] at h
      cases h1 : buildCodeTrie family conv c rules Trie.empty with
      | error e2 => rw [h1] at h; cases h
      | ok t =>
        rw [h1] at h
        dsimp only at h
        cases h2 : buildTries family conv rest with
        | error e2 => rw [h2] at h; cases h
        | ok mp2 =>
          rw [h2] at h
          dsimp only at h
          rw [← Except.ok.inj h]
          intro p hp
          rcases List.mem_cons.mp hp with hp1 | hp1
          · rw [hp1]
            exact buildCodeTrie_val h1
          · exact ih h2 p hp1

/-- A successful association-list lookup comes from a member pair. -/
theorem mem_of_lookup {β : Type} {l : List (Code × β)} {k : Code} {b : β}
    (h : List.lookup k l = some b) : (k, b) ∈ l := by
  induction l with
  | nil => cases h
  | cons p rest ih =>
    obtain ⟨k0, b0⟩ := p
    rw [List.lookup_cons] at h
    by_cases h0 : k == k0
    · rw [h0] at h
      have hk : k = k0 := by simpa using h0
      have hb : b0 = b := by simpa using h
      rw [← hk, hb]
      exact List.mem_cons_self _ _
    · rw [show (k == k0) = false from by simpa using h0] at h
      exact List.mem_cons_of_mem _ (ih h)

/-- The mapper `New` produces, with a harmless default on build failure;
used to name concrete snapshots in closed statements. -/
def mapperOr (opts : List MOption) : Mapper :=
  match New opts with
  | .ok m => m
  | .error _ =>
    { httpDefault := [], grpcDefault := [], httpOverride := [],
      grpcOverride := [], httpTrie := [], grpcTrie := [],
      fallbackHTTP := 500, fallbackGRPC := grpcInternal }

/-! # The claims -/

/-- C1: `HTTPStatus` and `GRPCStatus` resolve by the fixed four-tier
precedence — exact per-code override first, then a per-code trie match on
the reason, then the per-code default, then the global fallback (500 for
HTTP, `codes.Internal` for gRPC).  Resolution is total by construction
(both functions are total Lean functions on every mapper, category and
reason); for every mapper `New` builds, the per-code tries carry no value
at their root, so the trie tier reports no match on the empty reason and
resolution falls through to default/fallback. -/
theorem claim_C1 :
    (∀ (m : Mapper) (c : Code) (r : String),
      (∀ v, List.lookup c m.httpOverride = some v → m.HTTPStatus c r = v) ∧
      (List.lookup c m.httpOverride = none →
        ∀ v, trieHit m.httpTrie c r = some v → m.HTTPStatus c r = v) ∧
      (List.lookup c m.httpOverride = none → trieHit m.httpTrie c r = none →
        ∀ v, List.lookup c m.httpDefault = some v → m.HTTPStatus c r = v) ∧
      (List.lookup c m.httpOverride = none → trieHit m.httpTrie c r = none →
        List.lookup c m.httpDefault = none → m.HTTPStatus c r = 500) ∧
      (∀ v, List.lookup c m.grpcOverride = some v → m.GRPCStatus c r = v) ∧
      (List.lookup c m.grpcOverride = none →
        ∀ v, trieHit m.grpcTrie c r = some v → m.GRPCStatus c r = v) ∧
      (List.lookup c m.grpcOverride = none → trieHit m.grpcTrie c r = none →
        ∀ v, List.lookup c m.grpcDefault = some v → m.GRPCStatus c r = v) ∧
      (List.lookup c m.grpcOverride = none → trieHit m.grpcTrie c r = none →
        List.lookup c m.grpcDefault = none →
        m.GRPCStatus c r = grpcInternal)) ∧
    (∀ (opts : List MOption) (m : Mapper), New opts = .ok m →
      ∀ (c : Code) (t : Trie Int),
        List.lookup c m.httpTrie = some (some t) → t.matchVal "" = none) ∧
    (∀ (opts : List MOption) (m : Mapper), New opts = .ok m →
      ∀ (c : Code) (t : Trie GrpcCode),
        List.lookup c m.grpcTrie = some (some t) → t.matchVal "" = none) := by
  refine ⟨?_, ?_, ?_⟩
  · intro m c r
    refine ⟨?_, ?_, ?_, ?_, ?_, ?_, ?_, ?_⟩
    · intro v hv
      unfold Mapper.HTTPStatus
      rw [hv]
    · intro h1 v hv
      unfold Mapper.HTTPStatus
      rw [h1, hv]
    · intro h1 h2 v hv
      unfold Mapper.HTTPStatus
      rw [h1, h2, hv]
    · intro h1 h2 h3
      unfold Mapper.HTTPStatus
      rw [h1, h2, h3]
    · intro v hv
      unfold Mapper.GRPCStatus
      rw [hv]
    · intro h1 v hv
      unfold Mapper.GRPCStatus
      rw [h1, hv]
    · intro h1 h2 v hv
      unfold Mapper.GRPCStatus
      rw [h1, h2, hv]
    · intro h1 h2 h3
      unfold Mapper.GRPCStatus
      rw [h1, h2, h3]
  · intro opts m h c t hl
    unfold New at h
    dsimp only at h
    cases h1 : buildTries "http" (fun v => v)
        (opts.foldl applyOpt (seedDefaults newBuilder)).httpPfxRules with
    | error e => rw [h1] at h; cases h
    | ok httpT =>
      rw [h1] at h
      dsimp only at h
      cases h2 : buildTries "grpc" toGrpcCode
          (opts.foldl applyOpt (seedDefaults newBuilder)).grpcPfxRules with
      | error e => rw [h2] at h; cases h
      | ok grpcT =>
        rw [h2] at h
        dsimp only at h
        have hm := Except.ok.inj h
        have htr : m.httpTrie = httpT.map fun p => (p.1, some p.2) := by
          rw [← hm]
        rw [htr, lookup_map_some] at hl
        cases hl2 : List.lookup c httpT with
        | none => rw [hl2] at hl; cases hl
        | some t2 =>
          rw [hl2] at hl
          have ht2 : t2 = t := by simpa using hl
          have hval := buildTries_root_val h1 (c, t2) (mem_of_lookup hl2)
          rw [ht2] at hval
          exact Trie.matchVal_empty_reason hval
  · intro opts m h c t hl
    unfold New at h
    dsimp only at h
    cases h1 : buildTries "http" (fun v => v)
        (opts.foldl applyOpt (seedDefaults newBuilder)).httpPfxRules with
    | error e => rw [h1] at h; cases h
    | ok httpT =>
      rw [h1] at h
      dsimp only at h
      cases h2 : buildTries "grpc" toGrpcCode
          (opts.foldl applyOpt (seedDefaults newBuilder)).grpcPfxRules with
      | error e => rw [h2] at h; cases h
      | ok grpcT =>
        rw [h2] at h
        dsimp only at h
        have hm := Except.ok.inj h
        have htr : m.grpcTrie = grpcT.map fun p => (p.1, some p.2) := by
          rw [← hm]
        rw [htr, lookup_map_some] at hl
        cases hl2 : List.lookup c grpcT with
        | none => rw [hl2] at hl; cases hl
        | some t2 =>
          rw [hl2] at hl
          have ht2 : t2 = t := by simpa using hl
          have hval := buildTries_root_val h2 (c, t2) (mem_of_lookup hl2)
          rw [ht2] at hval
          exact Trie.matchVal_empty_reason hval

/-- A snapshot with an override registered (for exercising the first
tier). -/
def c1m1 : Mapper :=
  mapperOr [.withHTTPOverride "unavailable" 418,
    .withGRPCOverride "unavailable" 10]

/-- A snapshot with a prefix rule registered (for exercising the trie
tier). -/
def c1m2 : Mapper :=
  mapperOr [.withHTTPPfx "unavailable" "storage.pg" 599,
    .withGRPCPfx "unavailable" "storage.pg" 14]

/-- The trie `c1m2` holds for the `unavailable` code. -/
def c1t2 : Trie Int :=
  match List.lookup "unavailable" c1m2.httpTrie with
  | some (some t) => t
  | _ => Trie.empty

theorem claim_C1_witness :
    c1m1.HTTPStatus "unavailable" "x" = 418 ∧
    c1m2.HTTPStatus "unavailable" "storage.pg.connect" = 599 ∧
    (mapperOr []).HTTPStatus "invalid" "zz" = 400 ∧
    (mapperOr []).HTTPStatus "zzz" "" = 500 ∧
    (mapperOr []).GRPCStatus "zzz" "" = grpcInternal ∧
    c1t2.matchVal "" = none := by
  obtain ⟨hgen, hroot, _⟩ := claim_C1
  refine ⟨?_, ?_, ?_, ?_, ?_, ?_⟩
  · exact (hgen c1m1 "unavailable" "x").1 418 rfl
  · refine (hgen c1m2 "unavailable" "storage.pg.connect").2.1 rfl 599 ?_
    have hmv : c1t2.matchVal "storage.pg.connect" = some 599 := by
      rw [Trie.matchVal_eq_matchSegsVal, segsOf_toList]
      rfl
    show trieHit c1m2.httpTrie "unavailable" "storage.pg.connect" = some 599
    unfold trieHit
    rw [show List.lookup "unavailable" c1m2.httpTrie = some (some c1t2)
      from rfl]
    exact hmv
  · exact (hgen (mapperOr []) "invalid" "zz").2.2.1 rfl rfl 400 rfl
  · exact (hgen (mapperOr []) "zzz" "").2.2.2.1 rfl rfl rfl
  · exact (hgen (mapperOr []) "zzz" "").2.2.2.2.2.2.2 rfl rfl rfl
  · exact hroot [.withHTTPPfx "unavailable" "storage.pg" 599,
      .withGRPCPfx "unavailable" "storage.pg" 14] c1m2 rfl "unavailable"
      c1t2 rfl

/-- C2: the wildcard segment `*` matches exactly one segment of the
looked-up path: with `a.*` registered, the one-segment path `a` does not
match at all, `a.b` matches for every valid segment `b`, and `a.b.c`
matches only up to the `a.*` node (the winning pattern is `a.*`). -/
theorem claim_C2 : ∀ (v : Int) (t : Trie Int),
    Trie.empty.insert "a.*" v = .ok t →
    t.matchVal "a" = none ∧
    (∀ b : String, validSegChars b.toList = true →
      t.matchVal ("a." ++ b) = some v) ∧
    t.matchVal "a.b.c" = some v ∧
    t.matchWithPattern "a.b.c" = (some v, "a.*".toList) := by
  intro v t h
  have ht : t = Trie.insertSegs Trie.empty [['a'], ['*']] v "a.*".toList :=
    (Except.ok.inj h).symm
  subst ht
  refine ⟨?_, ?_, ?_, ?_⟩
  · rw [Trie.matchVal_eq_matchSegsVal]
    rw [show segsOf ("a" : String).toList = [['a']] from by
      rw [segsOf_toList]; decide]
    exact ((Trie.chain_matchSegs [['a'], ['*']] [['a']] v
      ("a.*".toList)).2 rfl).1
  · intro b hb
    rw [Trie.matchVal_eq_matchSegsVal]
    have hlist : ("a." ++ b).toList = 'a' :: '.' :: b.toList :=
      String.data_append "a." b
    have hsegs : segsOf ("a." ++ b).toList = [['a'], b.toList] := by
      rw [hlist]
      rw [segsOf_eq_cons (show nextSeg ('a' :: '.' :: b.toList) =
        some (['a'], b.toList) from rfl)]
      rw [segsOf_eq_cons (nextSeg_valid_end hb)]
      rw [segsOf_eq_nil (show nextSeg [] = none from rfl)]
    rw [hsegs]
    refine ((Trie.chain_matchSegs [['a'], ['*']] [['a'], b.toList] v
      ("a.*".toList)).1 ?_).1
    simp [Trie.wildPfx]
  · rw [Trie.matchVal_eq_matchSegsVal]
    rw [show segsOf ("a.b.c" : String).toList = [['a'], ['b'], ['c']] from by
      rw [segsOf_toList]; decide]
    exact ((Trie.chain_matchSegs [['a'], ['*']] [['a'], ['b'], ['c']] v
      ("a.*".toList)).1 (by simp [Trie.wildPfx])).1
  · rw [Trie.matchWithPattern_eq_matchSegsPat]
    rw [show segsOf ("a.b.c" : String).toList = [['a'], ['b'], ['c']] from by
      rw [segsOf_toList]; decide]
    exact ((Trie.chain_matchSegs [['a'], ['*']] [['a'], ['b'], ['c']] v
      ("a.*".toList)).1 (by simp [Trie.wildPfx])).2

/-- The single-pattern trie holding `a.*`, with value 7. -/
def c2t : Trie Int :=
  match Trie.empty.insert "a.*" (7 : Int) with
  | .ok t => t
  | _ => Trie.empty

theorem claim_C2_witness :
    c2t.matchVal "a" = none ∧
    c2t.matchVal ("a." ++ "b") = some 7 ∧
    c2t.matchVal "a.b.c" = some 7 ∧
    c2t.matchWithPattern "a.b.c" = (some 7, "a.*".toList) := by
  obtain ⟨h1, h2, h3, h4⟩ := claim_C2 7 c2t rfl
  exact ⟨h1, h2 "b" (by decide), h3, h4⟩

/-- C8: re-inserting the same pattern overwrites the stored value (last
write wins: every path the pattern matches now yields `v2`, and the node
holds `v2`), while the canonical pattern string recorded at the node — the
one `MatchWithPattern` reports — is the one stored by the first insertion
and is unchanged by the second. -/
theorem claim_C8 : ∀ (segs : List (List Char)) (v1 v2 : Int)
    (t1 t2 : Trie Int),
    segs ≠ [] →
    (∀ s ∈ segs, s = ['*'] ∨ validSegChars s = true) →
    ¬ (∀ s ∈ segs, s = ['*']) →
    Trie.empty.insert (String.mk (joinDots segs)) v1 = .ok t1 →
    t1.insert (String.mk (joinDots segs)) v2 = .ok t2 →
    (∀ path, Trie.wildPfx segs path = true →
      Trie.matchSegsVal t2 path = some v2 ∧
      Trie.matchSegsPat t2 path = (some v2, joinDots segs)) ∧
    Trie.entryAt t2 segs = some (some v2, joinDots segs) ∧
    Trie.entryAt t1 segs = some (some v1, joinDots segs) ∧
    ((∀ s ∈ segs, validSegChars s = true) →
      t2.matchVal (String.mk (joinDots segs)) = some v2 ∧
      t2.matchWithPattern (String.mk (joinDots segs)) =
        (some v2, joinDots segs)) := by
  intro segs v1 v2 t1 t2 hne hv hnw h1 h2
  have hi1 : Trie.empty.insertChars (joinDots segs) v1 =
      .ok (Trie.insertSegs Trie.empty segs v1 (joinDots segs)) :=
    Trie.insertChars_ok Trie.empty v1 hne hv hnw
  have ht1 : t1 = Trie.insertSegs Trie.empty segs v1 (joinDots segs) := by
    unfold Trie.insert at h1
    rw [show (String.mk (joinDots segs)).toList = joinDots segs from rfl]
      at h1
    rw [hi1] at h1
    exact (Except.ok.inj h1).symm
  have hi2 : t1.insertChars (joinDots segs) v2 =
      .ok (Trie.insertSegs t1 segs v2 (joinDots segs)) :=
    Trie.insertChars_ok t1 v2 hne hv hnw
  have ht2 : t2 = Trie.insertSegs Trie.empty segs v2 (joinDots segs) := by
    unfold Trie.insert at h2
    rw [show (String.mk (joinDots segs)).toList = joinDots segs from rfl]
      at h2
    rw [hi2] at h2
    rw [← Except.ok.inj h2, ht1]
    exact Trie.insertSegs_empty_twice segs v1 v2 (joinDots segs)
  subst ht1 ht2
  refine ⟨?_, ?_, ?_, ?_⟩
  · intro path hw
    exact (Trie.chain_matchSegs segs path v2 (joinDots segs)).1 hw
  · rw [Trie.entryAt_chain, if_pos rfl]
  · rw [Trie.entryAt_chain, if_pos rfl]
  · intro hlit
    have hsegs : segsOf (String.mk (joinDots segs)).toList = segs := by
      rw [show (String.mk (joinDots segs)).toList = joinDots segs from rfl]
      exact segsOf_joinDots hlit
    constructor
    · rw [Trie.matchVal_eq_matchSegsVal, hsegs]
      exact ((Trie.chain_matchSegs segs segs v2 (joinDots segs)).1
        (Trie.wildPfx_refl segs)).1
    · rw [Trie.matchWithPattern_eq_matchSegsPat, hsegs]
      exact ((Trie.chain_matchSegs segs segs v2 (joinDots segs)).1
        (Trie.wildPfx_refl segs)).2

/-- The trie after the first insertion of `a.b` (value 1). -/
def c8t1 : Trie Int :=
  match Trie.empty.insert (String.mk (joinDots [['a'], ['b']])) (1 : Int) with
  | .ok t => t
  | _ => Trie.empty

/-- The trie after re-inserting `a.b` with value 2. -/
def c8t2 : Trie Int :=
  match c8t1.insert (String.mk (joinDots [['a'], ['b']])) (2 : Int) with
  | .ok t => t
  | _ => Trie.empty

theorem claim_C8_witness :
    Trie.matchSegsVal c8t2 [['a'], ['b']] = some 2 ∧
    Trie.entryAt c8t2 [['a'], ['b']] = some (some 2, joinDots [['a'], ['b']]) ∧
    Trie.entryAt c8t1 [['a'], ['b']] = some (some 1, joinDots [['a'], ['b']]) ∧
    c8t2.matchVal (String.mk (joinDots [['a'], ['b']])) = some 2 := by
  obtain ⟨hall, he2, he1, hstr⟩ :=
    claim_C8 [['a'], ['b']] 1 2 c8t1 c8t2 (by decide) (by decide) (by decide)
      rfl rfl
  refine ⟨?_, he2, he1, ?_⟩
  · exact (hall [['a'], ['b']] (by decide)).1
  · exact (hstr (by decide)).1

/-- C3: match specificity is measured by matched segment depth, not by
literal-versus-wildcard preference.  Whenever `Match` returns a value, that
value is stored at a registered (value-carrying) pattern that matches a
segment-aligned prefix of the path and is at least as deep as every other
registered matching pattern — wildcards included; conversely, if any
registered pattern matches, `Match` succeeds.  In particular, with
`a.*.c → 7` and `a.b → 1`, matching `a.b.c` yields `7`. -/
theorem claim_C3 :
    (∀ (t : Trie Int) (r : String) (v : Int),
      t.matchVal r = some v →
      ∃ ps q, Trie.entryAt t ps = some (some v, q) ∧
        Trie.wildPfx ps (segsOf r.toList) = true ∧
        (∀ ps' (v' : Int) q', Trie.entryAt t ps' = some (some v', q') →
          Trie.wildPfx ps' (segsOf r.toList) = true →
          ps'.length ≤ ps.length)) ∧
    (∀ (t : Trie Int) (r : String) (ps : List (List Char)) (v : Int)
      (q : List Char),
      Trie.entryAt t ps = some (some v, q) →
      Trie.wildPfx ps (segsOf r.toList) = true →
      ∃ v', t.matchVal r = some v') ∧
    (∀ (ta tb : Trie Int),
      Trie.empty.insert "a.*.c" (7 : Int) = .ok ta →
      ta.insert "a.b" (1 : Int) = .ok tb →
      tb.matchVal "a.b.c" = some 7) := by
  refine ⟨?_, ?_, ?_⟩
  · intro t r v h
    rw [Trie.matchVal_eq_firstAtMax] at h
    cases hfm : Trie.firstAtMax (Trie.candsSegs t (segsOf r.toList) 0) with
    | none => rw [hfm] at h; cases h
    | some c =>
      rw [hfm] at h
      have hcv : c.2.1 = some v := h
      have hmem := List.mem_of_find?_eq_some hfm
      have hpred := List.find?_some hfm
      have hcd : (c.1 : Int) =
          Trie.maxDepth (Trie.candsSegs t (segsOf r.toList) 0) (-1) := by
        simpa using hpred
      obtain ⟨ps, hwp, hen, _, hd⟩ := Trie.candsSegs_sound hmem
      refine ⟨ps, c.2.2, by rw [← hcv]; exact hen, hwp, ?_⟩
      intro ps' v' q' hen' hwp'
      have hmem' := Trie.candsSegs_complete (n := t) 0 hwp' hen'
      have hle := Trie.mem_le_maxDepth hmem' (-1 : Int)
      rw [← hcd] at hle
      have h2 : ((ps'.length : Int)) ≤ (c.1 : Int) := by simpa using hle
      have h3 : ps'.length ≤ c.1 := by exact_mod_cast h2
      omega
  · intro t r ps v q hen hwp
    have hmem := Trie.candsSegs_complete (n := t) 0 hwp hen
    have hne : Trie.candsSegs t (segsOf r.toList) 0 ≠ [] := by
      intro h0
      rw [h0] at hmem
      cases hmem
    obtain ⟨c, hfm⟩ := Trie.firstAtMax_isSome hne
    have hcs := Trie.candsSegs_sound (List.mem_of_find?_eq_some hfm)
    obtain ⟨_, _, _, hsm, _⟩ := hcs
    rw [Trie.matchVal_eq_firstAtMax, hfm]
    cases hv2 : c.2.1 with
    | none => rw [hv2] at hsm; cases hsm
    | some v2 => exact ⟨v2, hv2⟩
  · intro ta tb h1 h2
    have hta : ta = Trie.insertSegs Trie.empty [['a'], ['*'], ['c']] 7
        ("a.*.c".toList) := (Except.ok.inj h1).symm
    subst hta
    have htb : tb = Trie.insertSegs
        (Trie.insertSegs Trie.empty [['a'], ['*'], ['c']] 7 ("a.*.c".toList))
        [['a'], ['b']] 1 ("a.b".toList) := (Except.ok.inj h2).symm
    subst htb
    rw [Trie.matchVal_eq_matchSegsVal, segsOf_toList]
    decide

/-- The trie holding `a.*.c → 7`. -/
def c3ta : Trie Int :=
  match Trie.empty.insert "a.*.c" (7 : Int) with
  | .ok t => t
  | _ => Trie.empty

/-- `c3ta` with `a.b → 1` added. -/
def c3tb : Trie Int :=
  match c3ta.insert "a.b" (1 : Int) with
  | .ok t => t
  | _ => Trie.empty

theorem claim_C3_witness :
    c3tb.matchVal "a.b.c" = some 7 ∧
    (c3tb.matchVal "a.b").isSome = true := by
  obtain ⟨hmax, hexist, hconc⟩ := claim_C3
  have h7 : c3tb.matchVal "a.b.c" = some 7 := hconc c3ta c3tb rfl rfl
  refine ⟨h7, ?_⟩
  have hent : Trie.entryAt c3tb [['a'], ['b']] =
      some (some 1, "a.b".toList) := by decide
  have hwild : Trie.wildPfx [['a'], ['b']] (segsOf ("a.b" : String).toList) =
      true := by
    rw [segsOf_toList]
    decide
  obtain ⟨v', hv⟩ := hexist c3tb "a.b" [['a'], ['b']] 1 ("a.b".toList)
    hent hwild
  rw [hv]
  rfl

namespace Trie

variable {T : Type}

/-- A fully-literal registered pattern of maximal matching depth is the
first candidate at that depth in traversal order: at every branching node
the exact-segment subtree is explored before the wildcard subtree, and the
literal pattern descends through exact edges only. -/
theorem firstAtMax_literal :
    ∀ (ps : List (List Char)) (t : Trie T) (path : List (List Char))
      (depth : Nat) (v : T) (q : List Char),
    (∀ s ∈ ps, s ≠ ['*']) →
    entryAt t ps = some (some v, q) →
    wildPfx ps path = true →
    maxDepth (candsSegs t path depth) (-1) =
      ((depth + ps.length : Nat) : Int) →
    firstAtMax (candsSegs t path depth) =
      some (depth + ps.length, some v, q) := by
  intro ps
  induction ps with
  | nil =>
    intro t path depth v q hlit hen hwp hmax
    rw [entryAt] at hen
    obtain ⟨hv, hq⟩ := Prod.mk.injEq _ _ _ _ ▸ Option.some.inj hen
    have hself : selfCands t depth = [(depth, some v, q)] := by
      unfold selfCands
      rw [hv, hq]
      simp
    have hpred : ((fun x : Cand T => (x.1 : Int) ==
        maxDepth (candsSegs t path depth) (-1)) (depth, some v, q)) = true := by
      rw [hmax]
      simp
    cases path with
    | nil =>
      unfold firstAtMax
      rw [show candsSegs t [] depth = [(depth, some v, q)] from by
        rw [candsSegs, hself]]
      rw [List.find?_cons_of_pos _ (by
        rw [show candsSegs t [] depth = [(depth, some v, q)] from by
          rw [candsSegs, hself]] at hpred
        exact hpred)]
      simp
    | cons s ss =>
      unfold firstAtMax
      have hshape : candsSegs t (s :: ss) depth =
          (depth, some v, q) :: (((match List.lookup s t.children with
            | some next => candsSegs next ss (depth + 1)
            | none => []) ++
           (match List.lookup ['*'] t.children with
            | some next => candsSegs next ss (depth + 1)
            | none => []))) := by
        rw [candsSegs, hself]
        rfl
      rw [hshape]
      rw [List.find?_cons_of_pos _ (by rw [hshape] at hpred; exact hpred)]
      simp
  | cons p ps' ih =>
    intro t path depth v q hlit hen hwp hmax
    cases path with
    | nil => cases hwp
    | cons s ss =>
      rw [wildPfx] at hwp
      have hwp' : wildPfx ps' ss = true := (Bool.and_eq_true_iff.mp hwp).2
      have hps : p = s := by
        rcases Bool.or_eq_true_iff.mp (Bool.and_eq_true_iff.mp hwp).1
          with h2 | h2
        · exact absurd (by simpa using h2) (hlit p (List.mem_cons_self _ _))
        · simpa using h2
      subst hps
      rw [entryAt] at hen
      cases hx : List.lookup p t.children with
      | none => rw [hx] at hen; cases hen
      | some child =>
        rw [hx] at hen
        dsimp only at hen
        have hshape : candsSegs t (p :: ss) depth =
            selfCands t depth ++
              (candsSegs child ss (depth + 1) ++
               (match List.lookup ['*'] t.children with
                | some next => candsSegs next ss (depth + 1)
                | none => [])) := by
          rw [candsSegs, hx]
        have hlen : ((depth + (p :: ps').length : Nat) : Int) =
            (((depth + 1) + ps'.length : Nat) : Int) := by
          push_cast
          simp only [List.length_cons]
          omega
        have hmaxE : maxDepth (candsSegs child ss (depth + 1)) (-1) =
            (((depth + 1) + ps'.length : Nat) : Int) := by
          refine le_antisymm ?_ ?_
          · refine maxDepth_le (by omega) ?_
            intro c hc
            have hcm : c ∈ candsSegs t (p :: ss) depth := by
              rw [hshape]
              exact List.mem_append_right _ (List.mem_append_left _ hc)
            have := mem_le_maxDepth hcm (-1 : Int)
            rw [hmax, hlen] at this
            exact this
          · have hmem := candsSegs_complete (n := child) (depth + 1) hwp' hen
            exact mem_le_maxDepth hmem (-1 : Int)
        have hih := ih child ss (depth + 1) v q
          (fun s2 hs2 => hlit s2 (List.mem_cons_of_mem _ hs2)) hen hwp' hmaxE
        have hpeq : maxDepth (candsSegs child ss (depth + 1)) (-1) =
            maxDepth (candsSegs t (p :: ss) depth) (-1) := by
          rw [hmaxE, hmax, hlen]
        unfold firstAtMax at hih ⊢
        rw [hpeq] at hih
        rw [hshape, List.find?_append, List.find?_append]
        have hselfnone : (selfCands t depth).find?
            (fun x => (x.1 : Int) ==
              maxDepth (candsSegs t (p :: ss) depth) (-1)) = none := by
          unfold selfCands
          by_cases hv : t.val.isSome
          · rw [if_pos hv]
            rw [List.find?_cons_of_neg _ (by
              rw [hmax]
              simp only [beq_iff_eq]
              push_cast
              simp only [List.length_cons]
              omega)]
            rfl
          · rw [if_neg hv]
            rfl
        rw [← hshape, hselfnone, hih]
        rw [hshape]
        simp only [Option.none_or, Option.or_some]
        rw [show depth + (p :: ps').length = (depth + 1) + ps'.length from by
          simp only [List.length_cons]
          omega]

end Trie

/-- The last candidate attaining the maximal depth of the list (what the
claim under test says `Match` keeps). -/
def Trie.lastAtMax {T : Type} (cs : List (Trie.Cand T)) :
    Option (Trie.Cand T) :=
  cs.reverse.find? (fun x => (x.1 : Int) == Trie.maxDepth cs (-1))

/-- The trie holding `a.b → 1` and then `a.* → 2` (insertion order
matters for the traversal order of the two equal-depth candidates). -/
def c5t : Trie Int :=
  match Trie.empty.insert "a.b" (1 : Int) with
  | .ok t =>
    match t.insert "a.*" (2 : Int) with
    | .ok t2 => t2
    | _ => Trie.empty
  | _ => Trie.empty

/-- Counterexample to C5 as stated: on path `a.b` the traversal meets two
equal-depth value-carrying candidates — the exact node `a.b` (value 1)
first, the wildcard node `a.*` (value 2) last.  The last candidate in
traversal order carries value 2, but `Match` returns 1: the update fires
only on strictly greater depth, so the FIRST candidate is kept, not the
last.  (This is also what makes the exact-literal-beats-wildcard test of
the repository pass.) -/
theorem claim_C5_counterexample :
    (Trie.empty.insert "a.b" (1 : Int)).bind
      (fun t => t.insert "a.*" (2 : Int)) = .ok c5t ∧
    Trie.candsSegs c5t (segsOf ("a.b" : String).toList) 0 =
      [(2, some 1, "a.b".toList), (2, some 2, "a.*".toList)] ∧
    Trie.lastAtMax (Trie.candsSegs c5t (segsOf ("a.b" : String).toList) 0) =
      some (2, some 2, "a.*".toList) ∧
    c5t.matchVal "a.b" = some 1 ∧
    (some (1 : Int) ≠ some (2 : Int)) := by
  refine ⟨rfl, ?_, ?_, ?_, by decide⟩
  · rw [segsOf_toList]
    decide
  · rw [segsOf_toList]
    decide
  · rw [Trie.matchVal_eq_matchSegsVal, segsOf_toList]
    decide

/-- C5 (amended): when several value-carrying candidates share the maximal
depth, `Match` (and `MatchWithPattern`) keep and return the FIRST
candidate found in traversal order — the best-so-far update fires only on
a strictly greater depth. -/
theorem claim_C5 : ∀ (t : Trie Int) (r : String),
    t.matchVal r =
      (Trie.firstAtMax (Trie.candsSegs t (segsOf r.toList) 0)).bind
        (fun c => c.2.1) ∧
    t.matchWithPattern r =
      ((Trie.firstAtMax (Trie.candsSegs t (segsOf r.toList) 0)).map
        (fun c => (c.2.1, c.2.2))).getD (none, []) := by
  intro t r
  refine ⟨Trie.matchVal_eq_firstAtMax t r, ?_⟩
  rw [Trie.matchWithPattern_eq_firstAtMax t r]
  cases Trie.firstAtMax (Trie.candsSegs t (segsOf r.toList) 0) with
  | none => rfl
  | some c => rfl

/-- C6: `Match` validates the path segment by segment as it consumes it;
from the first syntactically invalid segment on, the rest of the path is
ignored: the result equals the result on the longest valid dotted prefix,
a lenient partial match rather than an error.  Concretely, with `a.b → 1`
and `a.b.c → 2`, the malformed path `a.b.!c` still matches `a.b` (value
1), and `a.b!x` — invalid inside its second segment — matches nothing. -/
theorem claim_C6 :
    (∀ (t : Trie Int) (r : String),
      t.matchVal r = t.matchVal (String.mk (joinDots (segsOf r.toList))) ∧
      ∀ s ∈ segsOf r.toList, validSegChars s = true) ∧
    (∀ (ta tb : Trie Int),
      Trie.empty.insert "a.b" (1 : Int) = .ok ta →
      ta.insert "a.b.c" (2 : Int) = .ok tb →
      tb.matchVal "a.b.!c" = some 1 ∧ tb.matchVal "a.b!x" = none) := by
  constructor
  · intro t r
    refine ⟨?_, segsOf_valid r.toList⟩
    rw [Trie.matchVal_eq_matchSegsVal t r,
      Trie.matchVal_eq_matchSegsVal t (String.mk (joinDots (segsOf r.toList)))]
    rw [show (String.mk (joinDots (segsOf r.toList))).toList =
      joinDots (segsOf r.toList) from rfl]
    rw [segsOf_joinDots (segsOf_valid r.toList)]
  · intro ta tb h1 h2
    have hta : ta = Trie.insertSegs Trie.empty [['a'], ['b']] 1
        ("a.b".toList) := (Except.ok.inj h1).symm
    subst hta
    have htb : tb = Trie.insertSegs
        (Trie.insertSegs Trie.empty [['a'], ['b']] 1 ("a.b".toList))
        [['a'], ['b'], ['c']] 2 ("a.b.c".toList) := (Except.ok.inj h2).symm
    subst htb
    constructor
    · rw [Trie.matchVal_eq_matchSegsVal, segsOf_toList]
      decide
    · rw [Trie.matchVal_eq_matchSegsVal, segsOf_toList]
      decide

/-- The trie holding `a.b → 1`. -/
def c6ta : Trie Int :=
  match Trie.empty.insert "a.b" (1 : Int) with
  | .ok t => t
  | _ => Trie.empty

/-- `c6ta` with `a.b.c → 2` added. -/
def c6tb : Trie Int :=
  match c6ta.insert "a.b.c" (2 : Int) with
  | .ok t => t
  | _ => Trie.empty

theorem claim_C6_witness :
    c6tb.matchVal "a.b.!c" = some 1 ∧
    c6tb.matchVal "a.b!x" = none ∧
    c6tb.matchVal "a.b.!c" =
      c6tb.matchVal (String.mk (joinDots (segsOf ("a.b.!c" : String).toList))) := by
  obtain ⟨hgen, hconc⟩ := claim_C6
  obtain ⟨hw1, hw2⟩ := hconc c6ta c6tb rfl rfl
  exact ⟨hw1, hw2, (hgen c6tb "a.b.!c").1⟩

/-- C4: when a fully-literal registered pattern matches the path at the
same (maximal) depth as any other matching pattern, `Match` returns the
literal pattern's value: the exact-segment branch is explored first, and
the best-so-far update never replaces an equal-depth candidate.
Concretely, with `auth.*.verify → 1` and `auth.jwt.verify → 2`, matching
`auth.jwt.verify` yields `2`, while `auth.saml.verify.token` (where only
the wildcard pattern matches) yields `1`. -/
theorem claim_C4 :
    (∀ (t : Trie Int) (r : String) (ps : List (List Char)) (v : Int)
      (q : List Char),
      (∀ s ∈ ps, s ≠ ['*']) →
      Trie.entryAt t ps = some (some v, q) →
      Trie.wildPfx ps (segsOf r.toList) = true →
      (∀ ps' (v' : Int) q', Trie.entryAt t ps' = some (some v', q') →
        Trie.wildPfx ps' (segsOf r.toList) = true →
        ps'.length ≤ ps.length) →
      t.matchVal r = some v) ∧
    (∀ (ta tb : Trie Int),
      Trie.empty.insert "auth.*.verify" (1 : Int) = .ok ta →
      ta.insert "auth.jwt.verify" (2 : Int) = .ok tb →
      tb.matchVal "auth.jwt.verify" = some 2 ∧
      tb.matchVal "auth.saml.verify.token" = some 1) := by
  constructor
  · intro t r ps v q hlit hen hwp hmaxim
    have hx : (0 + ps.length, some v, q) ∈
        Trie.candsSegs t (segsOf r.toList) 0 :=
      Trie.candsSegs_complete 0 hwp hen
    have hmax : Trie.maxDepth (Trie.candsSegs t (segsOf r.toList) 0) (-1) =
        ((0 + ps.length : Nat) : Int) := by
      refine le_antisymm ?_ ?_
      · refine Trie.maxDepth_le (by omega) ?_
        intro c hc
        obtain ⟨ps', hwp', hen', hsm', hd'⟩ := Trie.candsSegs_sound hc
        cases hv' : c.2.1 with
        | none => rw [hv'] at hsm'; cases hsm'
        | some v' =>
          rw [hv'] at hen'
          have hle := hmaxim ps' v' c.2.2 hen' hwp'
          rw [hd']
          push_cast
          omega
      · exact Trie.mem_le_maxDepth hx (-1 : Int)
    have hfm := Trie.firstAtMax_literal ps t (segsOf r.toList) 0 v q
      hlit hen hwp hmax
    rw [Trie.matchVal_eq_firstAtMax, hfm]
    rfl
  · intro ta tb h1 h2
    have hta : ta = Trie.insertSegs Trie.empty
        [['a','u','t','h'], ['*'], ['v','e','r','i','f','y']] 1
        ("auth.*.verify".toList) := (Except.ok.inj h1).symm
    subst hta
    have htb : tb = Trie.insertSegs
        (Trie.insertSegs Trie.empty
          [['a','u','t','h'], ['*'], ['v','e','r','i','f','y']] 1
          ("auth.*.verify".toList))
        [['a','u','t','h'], ['j','w','t'], ['v','e','r','i','f','y']] 2
        ("auth.jwt.verify".toList) := (Except.ok.inj h2).symm
    subst htb
    constructor
    · rw [Trie.matchVal_eq_matchSegsVal, segsOf_toList]
      decide
    · rw [Trie.matchVal_eq_matchSegsVal, segsOf_toList]
      decide

/-- The trie holding `auth.*.verify → 1`. -/
def c4ta : Trie Int :=
  match Trie.empty.insert "auth.*.verify" (1 : Int) with
  | .ok t => t
  | _ => Trie.empty

/-- `c4ta` with `auth.jwt.verify → 2` added. -/
def c4tb : Trie Int :=
  match c4ta.insert "auth.jwt.verify" (2 : Int) with
  | .ok t => t
  | _ => Trie.empty

theorem claim_C4_witness :
    c4tb.matchVal "auth.jwt.verify" = some 2 ∧
    c4tb.matchVal "auth.saml.verify.token" = some 1 := by
  obtain ⟨hgen, hconc⟩ := claim_C4
  obtain ⟨hw1, hw2⟩ := hconc c4ta c4tb rfl rfl
  have hcs : Trie.candsSegs c4tb (segsOf ("auth.jwt.verify" : String).toList)
      0 = [(3, some 2, "auth.jwt.verify".toList),
           (3, some 1, "auth.*.verify".toList)] := by
    rw [segsOf_toList]
    decide
  have hvia : c4tb.matchVal "auth.jwt.verify" = some 2 := by
    refine hgen c4tb "auth.jwt.verify"
      [['a','u','t','h'], ['j','w','t'], ['v','e','r','i','f','y']] 2
      ("auth.jwt.verify".toList) (by decide) (by decide) ?_ ?_
    · rw [segsOf_toList]
      decide
    · intro ps' v' q' hen' hwp'
      have hmem := Trie.candsSegs_complete (n := c4tb) 0 hwp' hen'
      rw [hcs] at hmem
      rcases List.mem_cons.mp hmem with hm | hm
      · have h3 : 0 + ps'.length = 3 := congrArg Prod.fst hm
        simp only [List.length_cons, List.length_nil]
        omega
      · rcases List.mem_cons.mp hm with hm2 | hm2
        · have h3 : 0 + ps'.length = 3 := congrArg Prod.fst hm2
          simp only [List.length_cons, List.length_nil]
          omega
        · cases hm2
  exact ⟨hvia, hw2⟩

/-- Successful normalization guarantees the conditions under which the
trie insert cannot fail. -/
theorem normOk_conditions {raw : String} {p : List Char}
    (h : normalizeAndValidatePfx raw = .ok p) :
    p ≠ [] ∧ (splitDots p).all validPfxSegment = true ∧
    ¬ ((splitDots p).all (fun s => s = ['*']) = true) := by
  unfold normalizeAndValidatePfx at h
  by_cases h0 : normalizeChars raw.toList = []
  · rw [if_pos h0] at h; cases h
  · rw [if_neg h0] at h
    dsimp only at h
    cases hf : (splitDots (normalizeChars raw.toList)).find?
        (fun s => ! validPfxSegment s) with
    | some s => rw [hf] at h; cases h
    | none =>
      rw [hf] at h
      dsimp only at h
      by_cases hw : (splitDots (normalizeChars raw.toList)).all
          (fun s => s = ['*']) = true
      · rw [if_pos (by simpa using hw)] at h; cases h
      · rw [if_neg (by simpa using hw)] at h
        have hp : p = normalizeChars raw.toList := (Except.ok.inj h).symm
        subst hp
        refine ⟨h0, ?_, hw⟩
        rw [List.all_eq_true]
        intro s hs
        have := List.find?_eq_none.mp hf s hs
        simpa using this

/-- The per-code rule loop succeeds when every rule normalizes. -/
theorem buildCodeTrie_ok {V : Type} (family : String) (conv : Int → V)
    {c : Code} : ∀ (rules : List PfxRule) (t : Trie V),
    (∀ r ∈ rules, ∃ p, normalizeAndValidatePfx r.pfx = .ok p) →
    ∃ t', buildCodeTrie family conv c rules t = .ok t' := by
  intro rules
  induction rules with
  | nil => intro t _; exact ⟨t, rfl⟩
  | cons r rest ih =>
    intro t hall
    obtain ⟨p, hp⟩ := hall r (List.mem_cons_self _ _)
    obtain ⟨h1, h2, h3⟩ := normOk_conditions hp
    rw [buildCodeTrie, hp]
    dsimp only
    rw [Trie.insertChars_ok_of_valid t (conv r.val) h1 h2 h3]
    exact ih _ (fun r2 hr2 => hall r2 (List.mem_cons_of_mem _ hr2))

/-- The per-code rule loop fails, with the offending raw pattern in the
error, exactly at the first rule whose raw pattern does not normalize. -/
theorem buildCodeTrie_err {V : Type} (family : String) (conv : Int → V)
    {c : Code} : ∀ (rules : List PfxRule) (t : Trie V),
    (∃ r ∈ rules, ∃ er, normalizeAndValidatePfx r.pfx = .error er) →
    ∃ r ∈ rules, (∃ er, normalizeAndValidatePfx r.pfx = .error er) ∧
      buildCodeTrie family conv c rules t =
        .error (.invalidPfx family c r.pfx) := by
  intro rules
  induction rules with
  | nil =>
    intro t h
    obtain ⟨r, hr, _⟩ := h
    cases hr
  | cons r rest ih =>
    intro t hbad
    cases hn : normalizeAndValidatePfx r.pfx with
    | error e =>
      refine ⟨r, List.mem_cons_self _ _, ⟨e, hn⟩, ?_⟩
      rw [buildCodeTrie, hn]
    | ok p =>
      obtain ⟨h1, h2, h3⟩ := normOk_conditions hn
      obtain ⟨rb, hrb, hbe⟩ := hbad
      have hrb' : rb ∈ rest := by
        rcases List.mem_cons.mp hrb with hh | hh
        · subst hh
          obtain ⟨e, he⟩ := hbe
          rw [hn] at he
          cases he
        · exact hh
      obtain ⟨rb2, hrb2, hbe2, heq⟩ :=
        ih (Trie.insertSegs t (splitDots p) (conv r.val) p) ⟨rb, hrb', hbe⟩
      refine ⟨rb2, List.mem_cons_of_mem _ hrb2, hbe2, ?_⟩
      rw [buildCodeTrie, hn]
      dsimp only
      rw [Trie.insertChars_ok_of_valid t (conv r.val) h1 h2 h3]
      exact heq

/-- The per-code trie map construction succeeds when every rule of every
code normalizes. -/
theorem buildTries_ok {V : Type} (family : String) (conv : Int → V) :
    ∀ (l : List (Code × List PfxRule)),
    (∀ e ∈ l, ∀ r ∈ e.2, ∃ p, normalizeAndValidatePfx r.pfx = .ok p) →
    ∃ mp, buildTries family conv l = .ok mp := by
  intro l
  induction l with
  | nil => intro _; exact ⟨[], rfl⟩
  | cons e rest ih =>
    intro hall
    obtain ⟨c, rules⟩ := e
    by_cases h0 : rules = []
    · rw [buildTries, if_pos h0]
      exact ih (fun e2 he2 r hr => hall e2 (List.mem_cons_of_mem _ he2) r hr)
    · obtain ⟨t, ht⟩ := buildCodeTrie_ok family conv
        (c := c) rules Trie.empty
        (fun r hr => hall (c, rules) (List.mem_cons_self _ _) r hr)
      obtain ⟨mp, hmp⟩ :=
        ih (fun e2 he2 r hr => hall e2 (List.mem_cons_of_mem _ he2) r hr)
      refine ⟨(c, t) :: mp, ?_⟩
      rw [buildTries, if_neg h0, ht]
      dsimp only
      rw [hmp]

/-- The per-code trie map construction fails, with an offending code and
raw pattern in the error, whenever some rule of some code does not
normalize. -/
theorem buildTries_err {V : Type} (family : String) (conv : Int → V) :
    ∀ (l : List (Code × List PfxRule)),
    (∃ e ∈ l, ∃ r ∈ e.2, ∃ er, normalizeAndValidatePfx r.pfx = .error er) →
    ∃ c rules r, (c, rules) ∈ l ∧ r ∈ rules ∧
      (∃ er, normalizeAndValidatePfx r.pfx = .error er) ∧
      buildTries family conv l =
        .error (.invalidPfx family c r.pfx) := by
  intro l
  induction l with
  | nil =>
    intro h
    obtain ⟨e, he, _⟩ := h
    cases he
  | cons e0 rest ih =>
    intro hbad
    obtain ⟨c0, rules0⟩ := e0
    by_cases h0 : rules0 = []
    · have hrest : ∃ e ∈ rest, ∃ r ∈ e.2, ∃ er,
          normalizeAndValidatePfx r.pfx = .error er := by
        obtain ⟨e, he, r, hr, hx⟩ := hbad
        rcases List.mem_cons.mp he with hh | hh
        · subst hh
          rw [h0] at hr
          cases hr
        · exact ⟨e, hh, r, hr, hx⟩
      obtain ⟨c, rules, r, hm, hr, hbe, heq⟩ := ih hrest
      refine ⟨c, rules, r, List.mem_cons_of_mem _ hm, hr, hbe, ?_⟩
      rw [buildTries, if_pos h0]
      exact heq
    · by_cases hb0 : ∃ r ∈ rules0, ∃ er,
          normalizeAndValidatePfx r.pfx = .error er
      · obtain ⟨r, hr, hbe, heq⟩ := buildCodeTrie_err family conv
          (c := c0) rules0 Trie.empty hb0
        refine ⟨c0, rules0, r, List.mem_cons_self _ _, hr, hbe, ?_⟩
        rw [buildTries, if_neg h0, heq]
      · have hgood : ∀ r ∈ rules0, ∃ p,
            normalizeAndValidatePfx r.pfx = .ok p := by
          intro r hr
          cases hn : normalizeAndValidatePfx r.pfx with
          | error e => exact absurd ⟨r, hr, e, hn⟩ hb0
          | ok p => exact ⟨p, rfl⟩
        obtain ⟨t, ht⟩ := buildCodeTrie_ok family conv
          (c := c0) rules0 Trie.empty hgood
        have hrest : ∃ e ∈ rest, ∃ r ∈ e.2, ∃ er,
            normalizeAndValidatePfx r.pfx = .error er := by
          obtain ⟨e, he, r, hr, hx⟩ := hbad
          rcases List.mem_cons.mp he with hh | hh
          · subst hh
            exact absurd ⟨r, hr, hx⟩ hb0
          · exact ⟨e, hh, r, hr, hx⟩
        obtain ⟨c, rules, r, hm, hr, hbe, heq⟩ := ih hrest
        refine ⟨c, rules, r, List.mem_cons_of_mem _ hm, hr, hbe, ?_⟩
        rw [buildTries, if_neg h0, ht]
        dsimp only
        rw [heq]

/-- The builder `New` accumulates before compiling: defaults seeded, then
the options applied in order. -/
def builderOf (opts : List MOption) : Builder :=
  opts.foldl applyOpt (seedDefaults newBuilder)

/-- C7: building a mapper fails deterministically on any malformed prefix
pattern: whenever some accumulated rule's raw pattern fails normalization
(empty after normalization, empty segment, invalid character, or
all-wildcard — the cases of `normalizeAndValidatePfx`), `New` returns an
`invalidPfx` error naming an offending code and that code's offending raw
pattern text, and no mapper; when every rule normalizes, the build
succeeds (the subsequent trie inserts cannot fail). -/
theorem claim_C7 : ∀ (opts : List MOption),
    (((∃ e ∈ (builderOf opts).httpPfxRules, ∃ r ∈ e.2, ∃ er,
          normalizeAndValidatePfx r.pfx = .error er) ∨
      (∃ e ∈ (builderOf opts).grpcPfxRules, ∃ r ∈ e.2, ∃ er,
          normalizeAndValidatePfx r.pfx = .error er)) →
      ∃ fam c raw, New opts = .error (.invalidPfx fam c raw) ∧
        ((∃ rules, (c, rules) ∈ (builderOf opts).httpPfxRules ∧
            ∃ r ∈ rules, r.pfx = raw) ∨
         (∃ rules, (c, rules) ∈ (builderOf opts).grpcPfxRules ∧
            ∃ r ∈ rules, r.pfx = raw)) ∧
        (∃ er, normalizeAndValidatePfx raw = .error er)) ∧
    ((∀ e ∈ (builderOf opts).httpPfxRules, ∀ r ∈ e.2, ∃ p,
        normalizeAndValidatePfx r.pfx = .ok p) →
     (∀ e ∈ (builderOf opts).grpcPfxRules, ∀ r ∈ e.2, ∃ p,
        normalizeAndValidatePfx r.pfx = .ok p) →
      ∃ m, New opts = .ok m) := by
  intro opts
  constructor
  · intro hbad
    by_cases hhttp : ∃ e ∈ (builderOf opts).httpPfxRules, ∃ r ∈ e.2, ∃ er,
        normalizeAndValidatePfx r.pfx = .error er
    · obtain ⟨c, rules, r, hm, hr, hbe, heq⟩ :=
        buildTries_err "http" (fun v => v)
          (builderOf opts).httpPfxRules hhttp
      refine ⟨"http", c, r.pfx, ?_, Or.inl ⟨rules, hm, r, hr, rfl⟩, ?_⟩
      · unfold New
        dsimp only
        rw [show (opts.foldl applyOpt (seedDefaults newBuilder)) =
          builderOf opts from rfl]
        rw [heq]
      · obtain ⟨er, her⟩ := hbe
        exact ⟨er, her⟩
    · have hgrpc : ∃ e ∈ (builderOf opts).grpcPfxRules, ∃ r ∈ e.2, ∃ er,
          normalizeAndValidatePfx r.pfx = .error er := by
        rcases hbad with h | h
        · exact absurd h hhttp
        · exact h
      have hgood : ∀ e ∈ (builderOf opts).httpPfxRules, ∀ r ∈ e.2, ∃ p,
          normalizeAndValidatePfx r.pfx = .ok p := by
        intro e he r hr
        cases hn : normalizeAndValidatePfx r.pfx with
        | error er => exact absurd ⟨e, he, r, hr, er, hn⟩ hhttp
        | ok p => exact ⟨p, rfl⟩
      obtain ⟨mp, hmp⟩ := buildTries_ok "http"
        (fun v => v) (builderOf opts).httpPfxRules hgood
      obtain ⟨c, rules, r, hm, hr, hbe, heq⟩ :=
        buildTries_err "grpc" toGrpcCode
          (builderOf opts).grpcPfxRules hgrpc
      refine ⟨"grpc", c, r.pfx, ?_, Or.inr ⟨rules, hm, r, hr, rfl⟩, hbe⟩
      unfold New
      dsimp only
      rw [show (opts.foldl applyOpt (seedDefaults newBuilder)) =
        builderOf opts from rfl]
      rw [hmp]
      dsimp only
      rw [heq]
  · intro hh hg
    obtain ⟨mph, hmph⟩ := buildTries_ok "http"
      (fun v => v) (builderOf opts).httpPfxRules hh
    obtain ⟨mpg, hmpg⟩ := buildTries_ok "grpc"
      toGrpcCode (builderOf opts).grpcPfxRules hg
    refine ⟨{ httpDefault := (builderOf opts).httpDefaults
              grpcDefault := (builderOf opts).grpcDefaults.map
                fun p => (p.1, toGrpcCode p.2)
              httpOverride := (builderOf opts).httpOverride
              grpcOverride := (builderOf opts).grpcOverride.map
                fun p => (p.1, toGrpcCode p.2)
              httpTrie := mph.map fun p => (p.1, some p.2)
              grpcTrie := mpg.map fun p => (p.1, some p.2)
              fallbackHTTP := (builderOf opts).fallbackHTTP
              fallbackGRPC := (builderOf opts).fallbackGRPC }, ?_⟩
    unfold New
    dsimp only
    rw [show (opts.foldl applyOpt (seedDefaults newBuilder)) =
      builderOf opts from rfl]
    rw [hmph]
    dsimp only
    rw [hmpg]

theorem claim_C7_witness :
    (∃ fam c raw,
      New [.withHTTPPfx "unavailable" "*" 1] =
        .error (.invalidPfx fam c raw) ∧
      ((∃ rules, (c, rules) ∈
          (builderOf [.withHTTPPfx "unavailable" "*" 1]).httpPfxRules ∧
          ∃ r ∈ rules, r.pfx = raw) ∨
       (∃ rules, (c, rules) ∈
          (builderOf [.withHTTPPfx "unavailable" "*" 1]).grpcPfxRules ∧
          ∃ r ∈ rules, r.pfx = raw)) ∧
      (∃ er, normalizeAndValidatePfx raw = .error er)) ∧
    (∃ m, New [] = .ok m) := by
  constructor
  · refine (claim_C7 [.withHTTPPfx "unavailable" "*" 1]).1 (Or.inl ?_)
    refine ⟨("unavailable", [⟨"*", 1⟩]), ?_, ⟨"*", 1⟩,
      List.mem_cons_self _ _, .allWildcard, ?_⟩
    · show ("unavailable", [PfxRule.mk "*" 1]) ∈
        (builderOf [.withHTTPPfx "unavailable" "*" 1]).httpPfxRules
      exact List.mem_cons_self _ _
    · rfl
  · refine (claim_C7 []).2 ?_ ?_
    · intro e he
      cases he
    · intro e he
      cases he

/-- C9: `Explain` re-runs the same four-tier walk as resolution and is
consistent with it: for every mapper `New` builds and every code and
reason, the tier each family's line reports is exactly the tier whose
value `HTTPStatus`/`GRPCStatus` returns, the value in the line equals the
resolved value, and a prefix line carries the pattern text
`MatchWithPattern` reports for the winning node.  (Identical inputs give
identical output because the model is a pure function of its inputs.) -/
theorem claim_C9 : ∀ (opts : List MOption) (m : Mapper),
    New opts = .ok m → ∀ (c : Code) (r : String),
    (m.Explain c r).http.1 = m.httpTier c r ∧
    (m.Explain c r).http.2.source = m.httpTier c r ∧
    (m.Explain c r).http.2.value = m.HTTPStatus c r ∧
    ((m.Explain c r).http.1 = "prefix" →
      ∃ v q, trieHitPat m.httpTrie c r = some (v, q) ∧
        (m.Explain c r).http.2.pat = some (String.mk q)) ∧
    (m.Explain c r).grpc.1 = m.grpcTier c r ∧
    (m.Explain c r).grpc.2.source = m.grpcTier c r ∧
    (m.Explain c r).grpc.2.value = m.GRPCStatus c r ∧
    ((m.Explain c r).grpc.1 = "prefix" →
      ∃ v q, trieHitPat m.grpcTrie c r = some (v, q) ∧
        (m.Explain c r).grpc.2.pat = some (String.mk q)) := by
  intro opts m h c r
  obtain ⟨hf500, hfInt⟩ := New_fallback h
  have hthH : trieHit m.httpTrie c r =
      (trieHitPat m.httpTrie c r).map Prod.fst := trieHit_eq_pat _ _ _
  have hthG : trieHit m.grpcTrie c r =
      (trieHitPat m.grpcTrie c r).map Prod.fst := trieHit_eq_pat _ _ _
  have Hhttp : (m.explainHTTP c r).1 = m.httpTier c r ∧
      (m.explainHTTP c r).2.source = m.httpTier c r ∧
      (m.explainHTTP c r).2.value = m.HTTPStatus c r ∧
      ((m.explainHTTP c r).1 = "prefix" →
        ∃ v q, trieHitPat m.httpTrie c r = some (v, q) ∧
          (m.explainHTTP c r).2.pat = some (String.mk q)) := by
    unfold Mapper.explainHTTP Mapper.HTTPStatus Mapper.httpTier
    cases ho : List.lookup c m.httpOverride with
    | some v =>
      dsimp only
      exact ⟨rfl, rfl, rfl, fun habs => absurd habs (by decide)⟩
    | none =>
      rw [hthH]
      cases hp : trieHitPat m.httpTrie c r with
      | some pair =>
        obtain ⟨v, q⟩ := pair
        dsimp only
        exact ⟨rfl, rfl, rfl, fun _ => ⟨v, q, rfl, rfl⟩⟩
      | none =>
        dsimp only
        cases hd : List.lookup c m.httpDefault with
        | some v =>
          dsimp only
          exact ⟨rfl, rfl, rfl, fun habs => absurd habs (by decide)⟩
        | none =>
          dsimp only
          refine ⟨rfl, rfl, ?_, fun habs => absurd habs (by decide)⟩
          exact hf500
  have Hgrpc : (m.explainGRPC c r).1 = m.grpcTier c r ∧
      (m.explainGRPC c r).2.source = m.grpcTier c r ∧
      (m.explainGRPC c r).2.value = m.GRPCStatus c r ∧
      ((m.explainGRPC c r).1 = "prefix" →
        ∃ v q, trieHitPat m.grpcTrie c r = some (v, q) ∧
          (m.explainGRPC c r).2.pat = some (String.mk q)) := by
    unfold Mapper.explainGRPC Mapper.GRPCStatus Mapper.grpcTier
    cases ho : List.lookup c m.grpcOverride with
    | some v =>
      dsimp only
      exact ⟨rfl, rfl, rfl, fun habs => absurd habs (by decide)⟩
    | none =>
      rw [hthG]
      cases hp : trieHitPat m.grpcTrie c r with
      | some pair =>
        obtain ⟨v, q⟩ := pair
        dsimp only
        exact ⟨rfl, rfl, rfl, fun _ => ⟨v, q, rfl, rfl⟩⟩
      | none =>
        dsimp only
        cases hd : List.lookup c m.grpcDefault with
        | some v =>
          dsimp only
          exact ⟨rfl, rfl, rfl, fun habs => absurd habs (by decide)⟩
        | none =>
          dsimp only
          refine ⟨rfl, rfl, ?_, fun habs => absurd habs (by decide)⟩
          exact hfInt
  exact ⟨Hhttp.1, Hhttp.2.1, Hhttp.2.2.1, Hhttp.2.2.2,
    Hgrpc.1, Hgrpc.2.1, Hgrpc.2.2.1, Hgrpc.2.2.2⟩

/-- A snapshot with both a prefix rule and an override for the C9
witness. -/
def c9m : Mapper :=
  mapperOr [.withHTTPPfx "unavailable" "storage.pg" 503,
    .withGRPCOverride "canceled" 1]

theorem claim_C9_witness :
    (c9m.Explain "zzz" "x").http.2.value = c9m.HTTPStatus "zzz" "x" ∧
    (c9m.Explain "zzz" "x").http.1 = c9m.httpTier "zzz" "x" ∧
    (c9m.Explain "canceled" "").grpc.2.value =
      c9m.GRPCStatus "canceled" "" ∧
    (c9m.Explain "unavailable" "storage.pg.connect").http.2.value =
      c9m.HTTPStatus "unavailable" "storage.pg.connect" := by
  have h1 := claim_C9 [.withHTTPPfx "unavailable" "storage.pg" 503,
    .withGRPCOverride "canceled" 1] c9m rfl "zzz" "x"
  have h2 := claim_C9 [.withHTTPPfx "unavailable" "storage.pg" 503,
    .withGRPCOverride "canceled" 1] c9m rfl "canceled" ""
  have h3 := claim_C9 [.withHTTPPfx "unavailable" "storage.pg" 503,
    .withGRPCOverride "canceled" 1] c9m rfl "unavailable"
    "storage.pg.connect"
  exact ⟨h1.2.2.1, h1.1, h2.2.2.2.2.2.2.1, h3.2.2.1⟩

/-- C10: the three trie methods are total on a nil receiver: `Insert`
returns `ErrInvalidPrefix`, `Match` returns the no-match result, and
`MatchWithPattern` returns the no-match result with an empty pattern, for
every input. -/
theorem claim_C10 : ∀ (s : String) (v : Int),
    TriePtr.insert (none : TriePtr Int) s v = .error .errInvalidPfx ∧
    TriePtr.matchVal (none : TriePtr Int) s = none ∧
    TriePtr.matchWithPattern (none : TriePtr Int) s = (none, []) := by
  intro s v
  exact ⟨rfl, rfl, rfl⟩

end Derrors
